import Mathlib

/-!
MultiKeyMap and ChainIterator

A shallow embedding of `include/multikeymap.hpp` and `include/ChainIterator.h`.

* `std::map<K, T>` is an association list whose entries are kept in ascending key order.
* `MapOfMaps<K1, ..., Kd, V>` is the type family `MapOfMaps K V d` (all key types are
  embedded in one linearly ordered type `K`).
* A `hana::tuple` of keys that leads from a map with `d` key levels down to the part with
  `r` key levels left is a value of `Keys K d r`.
* A function returning a reference into the container (`detail::at`, `detail::traverse`)
  takes the code that uses the reference as a continuation and returns the container
  as it is after that code has run.
-/

set_option autoImplicit false

/-! ## Data model -/

/-- The nested map type `detail::MapOfMaps`: `d` key levels above a value. -/
def MapOfMaps (K V : Type) : Nat → Type
  | 0 => V
  | d + 1 => List (K × MapOfMaps K V d)

/-- A key tuple taking a map with `d` key levels to the part with `r` levels left. -/
inductive Keys (K : Type) : Nat → Nat → Type
  | nil {d : Nat} : Keys K d d
  | cons {d r : Nat} (key : K) (rest : Keys K d r) : Keys K (d + 1) r
  deriving DecidableEq

/-- The failure of `std::map::at` (`std::out_of_range`). -/
inductive Error
  | KeyNotFound
  deriving DecidableEq, Repr

namespace Keys

variable {K : Type}

/-- The keys of a tuple, first key first. -/
def toList : {d r : Nat} → Keys K d r → List K
  | _, _, nil => []
  | _, _, cons key rest => key :: toList rest

/-- Concatenation of key tuples (`hana::concat`). -/
def append : {d r s : Nat} → Keys K d r → Keys K r s → Keys K d s
  | _, _, _, nil, ys => ys
  | _, _, _, cons key rest, ys => cons key (append rest ys)

/-- The last key of a full key tuple (`hana::back`). -/
def back : {d : Nat} → Keys K (d + 1) 0 → K
  | _, cons key nil => key
  | _, cons _ (cons key rest) => back (cons key rest)

/-- All keys of a full key tuple but the last (`hana::take_front_c<size - 1>`). -/
def front : {d : Nat} → Keys K (d + 1) 0 → Keys K (d + 1) 1
  | _, cons _ nil => nil
  | _, cons key (cons key2 rest) => cons key (front (cons key2 rest))

end Keys

/-! ## `std::map` -/

namespace StdMap

variable {K β : Type}

/-- The member `find`: the mapped value of `key`, or `none` for `end()`. -/
def find [DecidableEq K] (key : K) : List (K × β) → Option β
  | [] => none
  | (k, b) :: rest => if key = k then some b else find key rest

/-- The map after `b` has been written through the reference `map[key]`: the entry of `key`
holds `b`, and the entries stay in ascending key order. -/
def insert [LinearOrder K] (key : K) (b : β) : List (K × β) → List (K × β)
  | [] => [(key, b)]
  | (k, c) :: rest =>
    if key < k then (key, b) :: (k, c) :: rest
    else if key = k then (key, b) :: rest
    else (k, c) :: insert key b rest

/-- The member `erase` at the position of `key`. -/
def erase [DecidableEq K] (key : K) : List (K × β) → List (K × β)
  | [] => []
  | (k, c) :: rest => if key = k then rest else (k, c) :: erase key rest

/-- The member `at`: the mapped value of `key`, or the failure `KeyNotFound`. -/
def at_ [DecidableEq K] (key : K) (map : List (K × β)) : Except Error β :=
  match find key map with
  | none => Except.error Error.KeyNotFound
  | some b => Except.ok b

/-- The member `operator[]`: the mapped value of `key`, a fresh `dflt` when there is none. -/
def subscript [DecidableEq K] (dflt : β) (key : K) (map : List (K × β)) : β :=
  (find key map).getD dflt

end StdMap

/-! ## `namespace detail` -/

namespace detail

variable {K V : Type}

/-- The value a `std::map` inserts for a missing key: `V()` or an empty map. -/
def init (dflt : V) : (d : Nat) → MapOfMaps K V d
  | 0 => dflt
  | _ + 1 => ([] : List (K × MapOfMaps K V _))

/-- The lambda `detail::at`, `map[key]`: `use` works on the returned reference, the entry
is created when it is missing. -/
def at_ [LinearOrder K] {α β : Type} (dflt : β) (key : K) (use : β → α × β)
    (map : List (K × β)) : α × List (K × β) :=
  let r := use (StdMap.subscript dflt key map)
  (r.1, StdMap.insert key r.2 map)

/-- The function `detail::traverse`: `hana::fold_left(keys, map, at)`; `use` works on the
returned reference. -/
def traverse [LinearOrder K] {α : Type} (dflt : V) :
    {d r : Nat} → Keys K d r → MapOfMaps K V d →
      (MapOfMaps K V r → α × MapOfMaps K V r) → α × MapOfMaps K V d
  | _, _, Keys.nil, map, use => use map
  | _, _, Keys.cons key rest, map, use =>
    at_ (init dflt _) key (fun child => traverse dflt rest child use) map

/-- The struct `detail::SubTreeValues<KeysLeft>`, the call operator that takes a key tuple
(the one `valuesImpl` with sub keys calls): the outputs are the pair `(values, keys)`. -/
def SubTreeValues : (KeysLeft : Nat) → MapOfMaps K V KeysLeft →
    List V × List (List K) → List K → List V × List (List K)
  | 0, value, out, tuple => (out.1 ++ [show V from value], out.2 ++ [tuple])
  | KeysLeft + 1, map, out, tuple =>
    List.foldl (fun acc (it : K × MapOfMaps K V KeysLeft) =>
      SubTreeValues KeysLeft it.2 acc (tuple ++ [it.1])) out map

end detail

/-! ## `class MultiKeyMap` -/

/-- A `std::vector<Value>` object (`ValueCt`): its elements and where the object lives. -/
structure ValueCt (V : Type) where
  address : Nat
  elems : List V
  deriving DecidableEq, Repr

/-- A `std::vector<Value>::iterator`: a position in the storage of one vector (`none`:
a vector that holds no element and has no storage). -/
structure VectorIterator where
  storage : Option Nat
  index : Nat
  deriving DecidableEq, Repr

namespace ValueCt

variable {V : Type}

/-- The storage of a vector: its own, once it holds an element. -/
def storage (c : ValueCt V) : Option Nat :=
  if c.elems.isEmpty then none else some c.address

/-- The member `begin()` of a vector. -/
def begin (c : ValueCt V) : VectorIterator := ⟨c.storage, 0⟩

/-- The member `end()` of a vector. -/
def end_ (c : ValueCt V) : VectorIterator := ⟨c.storage, c.elems.length⟩

end ValueCt

namespace MultiKeyMap

/-- The class `MultiKeyMap::Iterator`. -/
structure Iterator (V : Type) where
  m_values : ValueCt V
  m_it : VectorIterator
  deriving DecidableEq, Repr

namespace Iterator

variable {V : Type}

/-- The member `operator*`: `none` when `m_it` is not at an element of the snapshot. -/
def deref (self : Iterator V) : Option V :=
  if self.m_it.storage = self.m_values.storage then self.m_values.elems[self.m_it.index]?
  else none

/-- The member `operator++()`. -/
def incr (self : Iterator V) : Iterator V :=
  { self with m_it := ⟨self.m_it.storage, self.m_it.index + 1⟩ }

/-- The member `operator==`: `iterator.m_it == m_it`. -/
def eq (self iterator : Iterator V) : Bool :=
  decide (iterator.m_it = self.m_it)

/-- The member `operator!=`. -/
def ne (self iterator : Iterator V) : Bool :=
  !(self.eq iterator)

end Iterator

variable {K V : Type} [LinearOrder K]

/-- The member `operator()`: a reference to the value under `keys`, on which `use` works. -/
def call {α : Type} {d : Nat} (dflt : V) (keys : Keys K d 0) (use : V → α × V)
    (multiKeyMap : MapOfMaps K V d) : α × MapOfMaps K V d :=
  detail.traverse dflt keys multiKeyMap use

/-- The statement `map(keys...) = v`. -/
def assign {d : Nat} (dflt : V) (keys : Keys K d 0) (v : V)
    (multiKeyMap : MapOfMaps K V d) : MapOfMaps K V d :=
  (call dflt keys (fun _ => ((), v)) multiKeyMap).2

/-- The member `atImpl`: the result and the container after the call. -/
def atImpl {d : Nat} (dflt : V) (keysTuple : Keys K (d + 1) 0)
    (multiKeyMap : MapOfMaps K V (d + 1)) : Except Error V × MapOfMaps K V (d + 1) :=
  detail.traverse dflt keysTuple.front multiKeyMap
    (fun (subMap : MapOfMaps K V 1) => (StdMap.at_ keysTuple.back subMap, subMap))

/-- The member `testImpl`. -/
def testImpl {d : Nat} (dflt : V) (keysTuple : Keys K (d + 1) 0)
    (multiKeyMap : MapOfMaps K V (d + 1)) : Bool × MapOfMaps K V (d + 1) :=
  detail.traverse dflt keysTuple.front multiKeyMap
    (fun (subMap : MapOfMaps K V 1) =>
      ((StdMap.find keysTuple.back subMap).isSome, subMap))

/-- The member `eraseImpl`. -/
def eraseImpl {d : Nat} (dflt : V) (keysTuple : Keys K (d + 1) 0)
    (multiKeyMap : MapOfMaps K V (d + 1)) : Bool × MapOfMaps K V (d + 1) :=
  detail.traverse dflt keysTuple.front multiKeyMap
    (fun (lastMap : MapOfMaps K V 1) =>
      match StdMap.find keysTuple.back lastMap with
      | none => (false, lastMap)
      | some _ => (true, StdMap.erase keysTuple.back lastMap))

/-- The member `valuesImpl` with sub keys: the outputs `(values, keys)` and the container
after the call. -/
def valuesImpl {d r : Nat} (dflt : V) (values : List V) (keys : List (List K))
    (subKeys : Keys K d r) (multiKeyMap : MapOfMaps K V d) :
    (List V × List (List K)) × MapOfMaps K V d :=
  detail.traverse dflt subKeys multiKeyMap
    (fun sub => (detail.SubTreeValues r sub (values, keys) subKeys.toList, sub))

/-- The member `at`. -/
def at_ {d : Nat} (dflt : V) (keys : Keys K (d + 1) 0)
    (multiKeyMap : MapOfMaps K V (d + 1)) : Except Error V × MapOfMaps K V (d + 1) :=
  atImpl dflt keys multiKeyMap

/-- The member `test`. -/
def test {d : Nat} (dflt : V) (keys : Keys K (d + 1) 0)
    (multiKeyMap : MapOfMaps K V (d + 1)) : Bool × MapOfMaps K V (d + 1) :=
  testImpl dflt keys multiKeyMap

/-- The member `erase`. -/
def erase {d : Nat} (dflt : V) (keys : Keys K (d + 1) 0)
    (multiKeyMap : MapOfMaps K V (d + 1)) : Bool × MapOfMaps K V (d + 1) :=
  eraseImpl dflt keys multiKeyMap

/-- The member `values` with sub keys. -/
def values {d r : Nat} (dflt : V) (values : List V) (keys : List (List K))
    (subKeys : Keys K d r) (multiKeyMap : MapOfMaps K V d) :
    (List V × List (List K)) × MapOfMaps K V d :=
  valuesImpl dflt values keys subKeys multiKeyMap

/-- The member `begin`; `address` is where `std::make_shared<ValueCt>()` puts the vector. -/
def begin {d r : Nat} (dflt : V) (address : Nat) (keys : Keys K d r)
    (multiKeyMap : MapOfMaps K V d) : Iterator V × MapOfMaps K V d :=
  let res := values dflt [] [] keys multiKeyMap
  let valuesCt : ValueCt V := ⟨address, res.1.1⟩
  (⟨valuesCt, valuesCt.begin⟩, res.2)

/-- The member `end`; `address` is where `std::make_shared<ValueCt>()` puts the vector. -/
def end_ {d r : Nat} (dflt : V) (address : Nat) (keys : Keys K d r)
    (multiKeyMap : MapOfMaps K V d) : Iterator V × MapOfMaps K V d :=
  let res := values dflt [] [] keys multiKeyMap
  let valuesCt : ValueCt V := ⟨address, res.1.1⟩
  (⟨valuesCt, valuesCt.end_⟩, res.2)

/-- The member `find`; the returned iterator is the one `end` or `begin` builds. -/
def find {d : Nat} (dflt : V) (address : Nat) (keys : Keys K (d + 1) 0)
    (multiKeyMap : MapOfMaps K V (d + 1)) : Iterator V × MapOfMaps K V (d + 1) :=
  let result := test dflt keys multiKeyMap
  if result.1 = false then
    end_ dflt address (Keys.nil : Keys K (d + 1) (d + 1)) result.2
  else
    begin dflt address keys result.2

/-- What is stored below the key tuple `keys`, found without creating anything: `none`
when a key of the tuple has no entry. For a full key tuple this is the stored value. -/
def node {d r : Nat} : Keys K d r → MapOfMaps K V d → Option (MapOfMaps K V r)
  | Keys.nil, map => some map
  | Keys.cons key rest, map => (StdMap.find key map).bind (node rest)

/-- Every `std::map` of the container has its keys in strictly ascending order. -/
def WF : (d : Nat) → MapOfMaps K V d → Prop
  | 0, _ => True
  | d + 1, map =>
    List.Pairwise (fun a b => a < b) (List.map Prod.fst map) ∧
      ∀ it : K × MapOfMaps K V d, List.Mem it map → WF d it.2

/-- The loop `for (it = first; it != last; ++it)` reading `*it` in its body: the values
read, `none` when the fuel runs out or a cursor that is at no element of its snapshot is
dereferenced. -/
def iterLoop {V : Type} (last : Iterator V) : Nat → Iterator V → Option (List V)
  | 0, _ => none
  | fuel + 1, it =>
    if it.ne last then
      match it.deref with
      | none => none
      | some v => Option.map (fun vs => v :: vs) (iterLoop last fuel it.incr)
    else some []

end MultiKeyMap


/-! ## `class ChainIterator` -/

/-- The class `ChainIterator`. The iterators of a range are positions in that range, so
`m_iteratorsTpl` holds one pair `(begin, end)` of positions per range. -/
structure ChainIterator where
  m_iteratorsTpl : List (Nat × Nat)
  m_section : Nat
  m_maxSection : Nat
  deriving DecidableEq, Repr

/-- The function `toIterators`: `(range.begin(), range.end())` of every range. -/
def toIterators {V : Type} (ranges : List (List V)) : List (Nat × Nat) :=
  List.map (fun range => (0, range.length)) ranges

/-- The call `boost::hana::for_each` with a lambda that takes each element by reference
and keeps a state in captured variables. -/
def forEach {σ α : Type} (f : σ → α → σ × α) : σ → List α → σ × List α
  | st, [] => (st, [])
  | st, x :: xs =>
    let r := f st x
    let rs := forEach f r.1 xs
    (rs.1, r.2 :: rs.2)

namespace ChainIterator

/-- The constructor: `m_maxSection` is the size of the tuple, decremented once. A chain has
at least one range (`FirstRange` takes the first), so the decrement does not wrap. -/
def new (beginTpl : List (Nat × Nat)) : ChainIterator :=
  { m_iteratorsTpl := beginTpl, m_section := 0, m_maxSection := beginTpl.length - 1 }

/-- The member `begin`. -/
def begin (self : ChainIterator) : ChainIterator := self

/-- The lambda of `end`; the state is `sectionI`. -/
def endStep (m_section : Nat) (sectionI : Nat) (iterators : Nat × Nat) :
    Nat × (Nat × Nat) :=
  if sectionI ≠ m_section then (sectionI + 1, iterators)
  else (sectionI, (iterators.2, iterators.2))

/-- The member `end`. -/
def end_ (self : ChainIterator) : ChainIterator :=
  let tmp := { self with m_section := self.m_maxSection }
  { tmp with m_iteratorsTpl := (forEach (endStep tmp.m_section) 0 tmp.m_iteratorsTpl).2 }

/-- The lambda of `increment`; the state is `(sectionI, incrementSection)`. -/
def incrementStep (m_section m_maxSection : Nat) (st : Nat × Bool) (iterators : Nat × Nat) :
    (Nat × Bool) × (Nat × Nat) :=
  if st.1 ≠ m_section then ((st.1 + 1, st.2), iterators)
  else
    let begin := iterators.1 + 1
    let sectionI := st.1 + 1
    if m_section = m_maxSection ∧ begin = iterators.2 then
      ((sectionI, st.2), (begin, iterators.2))
    else if begin = iterators.2 then ((sectionI, true), (begin, iterators.2))
    else ((sectionI, st.2), (begin, iterators.2))

/-- The member `increment`. -/
def increment (self : ChainIterator) : ChainIterator :=
  let r := forEach (incrementStep self.m_section self.m_maxSection) (0, false)
    self.m_iteratorsTpl
  { self with
    m_iteratorsTpl := r.2
    m_section := if r.1.2 then self.m_section + 1 else self.m_section }

/-- The lambda of `callOnCurrentIterator`: the fold state is the tuple with the visited
elements dropped; `callable` changes the variables it captured, here `σ`. -/
def callStep {σ : Type} (self : ChainIterator) (callable : Nat → Nat → Nat → σ → σ)
    (acc : List (Nat × Nat) × σ) (iterators : Nat × Nat) : List (Nat × Nat) × σ :=
  let sectionI := self.m_iteratorsTpl.length - acc.1.length
  let isCurrentSection := decide (self.m_section = sectionI)
  (List.drop 1 acc.1,
    if isCurrentSection then callable sectionI iterators.1 iterators.2 acc.2 else acc.2)

/-- The member `callOnCurrentIterator`: `boost::hana::fold_left` over the tuple. -/
def callOnCurrentIterator {σ : Type} (self : ChainIterator)
    (callable : Nat → Nat → Nat → σ → σ) (captured : σ) : σ :=
  (List.foldl (callStep self callable) (self.m_iteratorsTpl, captured)
    self.m_iteratorsTpl).2

/-- The member `equal`: both `otherBegin` and `otherEnd` are read from the first
component of the other iterator's pair. -/
def equal (self other : ChainIterator) : Bool :=
  self.callOnCurrentIterator (fun sectionI begin end_ isEqual =>
    if other.m_section = sectionI then
      match other.m_iteratorsTpl[sectionI]? with
      | some otherIterators =>
        let otherBegin := otherIterators.1
        let otherEnd := otherIterators.1
        decide (begin = otherBegin) && decide (end_ = otherEnd)
      | none => isEqual
    else isEqual) false

/-- The member `dereference`: the element at the cursor of the current section, `none`
when the cursor is at no element of the range. -/
def dereference {V : Type} (ranges : List (List V)) (self : ChainIterator) : Option V :=
  self.callOnCurrentIterator (fun sectionI begin _ _ =>
    (ranges[sectionI]?).bind (fun range => range[begin]?)) none

end ChainIterator

/-- The function `makeChainIterator`. -/
def makeChainIterator {V : Type} (ranges : List (List V)) : ChainIterator :=
  ChainIterator.new (toIterators ranges)

/-- The loop `for (it = first; it != last; ++it)` reading `*it` in its body: the elements
read and the number of increments, `none` when the fuel runs out or a cursor that is at
no element is dereferenced. -/
def forLoop {V : Type} (ranges : List (List V)) (last : ChainIterator) :
    Nat → ChainIterator → Option (List V × Nat)
  | 0, _ => none
  | fuel + 1, it =>
    if it.equal last then some ([], 0)
    else
      match it.dereference ranges with
      | none => none
      | some v =>
        Option.map (fun r => (v :: r.1, r.2 + 1)) (forLoop ranges last fuel it.increment)

/-! ## The effect of `detail::traverse` in closed form -/

namespace detail

variable {K V : Type}

/-- The part of the container that `traverse` hands to its caller. -/
def reach [DecidableEq K] (dflt : V) :
    {d r : Nat} → Keys K d r → MapOfMaps K V d → MapOfMaps K V r
  | _, _, Keys.nil, map => map
  | _, _, Keys.cons key rest, map =>
    reach dflt rest (StdMap.subscript (init dflt _) key map)

/-- The container once the part that `traverse` reaches through `keys` has become `x`. -/
def put [LinearOrder K] (dflt : V) :
    {d r : Nat} → Keys K d r → MapOfMaps K V r → MapOfMaps K V d → MapOfMaps K V d
  | _, _, Keys.nil, x, _ => x
  | _, _, Keys.cons key rest, x, map =>
    StdMap.insert key (put dflt rest x (StdMap.subscript (init dflt _) key map)) map

/-- The leaves below a part of the container in the order `SubTreeValues` visits them,
each with the keys that lead to it from that part. -/
def entries : (r : Nat) → MapOfMaps K V r → List (List K × V)
  | 0, value => [([], (show V from value))]
  | r + 1, map =>
    List.flatMap map (fun (it : K × MapOfMaps K V r) =>
      List.map (fun e => (it.1 :: e.1, e.2)) (entries r it.2))

end detail

/-! ## A concrete container -/

namespace Example

/-- A full key tuple of a container with two key levels. -/
def key2 (a b : Nat) : Keys Nat 2 0 := Keys.cons a (Keys.cons b Keys.nil)

/-- A one-key prefix of a container with two key levels. -/
def key1 (a : Nat) : Keys Nat 2 1 := Keys.cons a Keys.nil

/-- The container without entries. -/
def emptyMap : MapOfMaps Nat Nat 2 := ([] : List (Nat × List (Nat × Nat)))

/-- The container holding `(1, 24) -> 1`, `(1, 25) -> 2` and `(2, 24) -> 3`. -/
def abMap : MapOfMaps Nat Nat 2 :=
  ([(1, [(24, 1), (25, 2)]), (2, [(24, 3)])] : List (Nat × List (Nat × Nat)))

end Example

/-! ## Facts about `std::map` -/

namespace StdMap

variable {K β : Type}

theorem find_insert [LinearOrder K] (key key2 : K) (b : β) (m : List (K × β)) :
    find key2 (insert key b m) = if key2 = key then some b else find key2 m := by
  induction m with
  | nil => simp [insert, find]
  | cons hd tl ih =>
    obtain ⟨k, c⟩ := hd
    by_cases h1 : key < k
    · by_cases h : key2 = key <;> simp [insert, find, h1, h]
    · by_cases h2 : key = k
      · subst h2
        by_cases h : key2 = key <;> simp [insert, find, h]
      · by_cases h : key2 = key
        · subst h
          simp [insert, find, h1, h2, ih]
        · simp [insert, find, h1, h2, ih, h]

theorem find_some_mem [DecidableEq K] {key : K} {b : β} {m : List (K × β)}
    (h : find key m = some b) : (key, b) ∈ m := by
  induction m with
  | nil => simp [find] at h
  | cons hd tl ih =>
    obtain ⟨k, c⟩ := hd
    by_cases hk : key = k
    · subst hk
      simp [find] at h
      simp [h]
    · simp [find, hk] at h
      exact List.mem_cons_of_mem _ (ih h)

theorem find_none_of_lt [LinearOrder K] {key : K} {m : List (K × β)}
    (h : ∀ a ∈ List.map Prod.fst m, key < a) : find key m = none := by
  induction m with
  | nil => rfl
  | cons hd tl ih =>
    obtain ⟨k, c⟩ := hd
    have hk : key < k := h k (by simp)
    have : find key tl = none := ih (fun a ha => h a (by simp at ha ⊢; exact Or.inr ha))
    simp [find, ne_of_lt hk, this]

theorem mem_iff_find [LinearOrder K] {m : List (K × β)}
    (hs : List.Pairwise (fun a b => a < b) (List.map Prod.fst m)) (key : K) (b : β) :
    (key, b) ∈ m ↔ find key m = some b := by
  induction m with
  | nil => simp [find]
  | cons hd tl ih =>
    obtain ⟨k, c⟩ := hd
    simp only [List.map_cons, List.pairwise_cons] at hs
    by_cases hk : key = k
    · subst hk
      have hn : ∀ x, (key, x) ∉ tl := fun x hx =>
        lt_irrefl key (hs.1 key (List.mem_map.2 ⟨(key, x), hx, rfl⟩))
      simp [find, hn, eq_comm]
    · simp [find, hk, ih hs.2]

theorem insert_eq_self [LinearOrder K] {m : List (K × β)}
    (hs : List.Pairwise (fun a b => a < b) (List.map Prod.fst m)) {key : K} {b : β}
    (h : find key m = some b) : insert key b m = m := by
  induction m with
  | nil => simp [find] at h
  | cons hd tl ih =>
    obtain ⟨k, c⟩ := hd
    simp only [List.map_cons, List.pairwise_cons] at hs
    by_cases hk : key = k
    · subst hk
      simp [find] at h
      simp [insert, h]
    · simp only [find, hk, if_false] at h
      have hmem : key ∈ List.map Prod.fst tl := List.mem_map.2 ⟨(key, b), find_some_mem h, rfl⟩
      have hlt : k < key := hs.1 key hmem
      simp [insert, hk, not_lt_of_lt hlt, ih hs.2 h]

theorem find_erase_ne [DecidableEq K] {key key2 : K} (h : key2 ≠ key) (m : List (K × β)) :
    find key2 (erase key m) = find key2 m := by
  induction m with
  | nil => rfl
  | cons hd tl ih =>
    obtain ⟨k, c⟩ := hd
    by_cases hk : key = k
    · subst hk
      simp [erase, find, h]
    · by_cases hk2 : key2 = k <;> simp [erase, find, hk, hk2, ih]

theorem find_erase_self [LinearOrder K] {m : List (K × β)}
    (hs : List.Pairwise (fun a b => a < b) (List.map Prod.fst m)) (key : K) :
    find key (erase key m) = none := by
  induction m with
  | nil => rfl
  | cons hd tl ih =>
    obtain ⟨k, c⟩ := hd
    simp only [List.map_cons, List.pairwise_cons] at hs
    by_cases hk : key = k
    · subst hk
      simp only [erase, if_true]
      exact find_none_of_lt hs.1
    · simp [erase, find, hk, ih hs.2]

theorem erase_eq_self [DecidableEq K] {key : K} {m : List (K × β)}
    (h : find key m = none) : erase key m = m := by
  induction m with
  | nil => rfl
  | cons hd tl ih =>
    obtain ⟨k, c⟩ := hd
    by_cases hk : key = k
    · simp [find, hk] at h
    · simp only [find, hk, if_false] at h
      simp [erase, hk, ih h]

theorem mem_insert [LinearOrder K] {key : K} {b : β} {m : List (K × β)} {it : K × β}
    (h : it ∈ insert key b m) : it = (key, b) ∨ it ∈ m := by
  induction m with
  | nil =>
    simp only [insert, List.mem_singleton] at h
    exact Or.inl h
  | cons hd tl ih =>
    obtain ⟨k, c⟩ := hd
    by_cases h1 : key < k
    · simp only [insert, h1, if_true, List.mem_cons] at h
      rcases h with h | h | h
      · exact Or.inl h
      · exact Or.inr (by simp [h])
      · exact Or.inr (List.mem_cons_of_mem _ h)
    · by_cases h2 : key = k
      · subst h2
        simp only [insert, h1, if_true, if_false, List.mem_cons] at h
        rcases h with h | h
        · exact Or.inl h
        · exact Or.inr (List.mem_cons_of_mem _ h)
      · simp only [insert, h1, h2, if_false, List.mem_cons] at h
        rcases h with h | h
        · exact Or.inr (by simp [h])
        · rcases ih h with h3 | h3
          · exact Or.inl h3
          · exact Or.inr (List.mem_cons_of_mem _ h3)

theorem sorted_insert [LinearOrder K] {m : List (K × β)}
    (hs : List.Pairwise (fun a b => a < b) (List.map Prod.fst m)) (key : K) (b : β) :
    List.Pairwise (fun a b => a < b) (List.map Prod.fst (insert key b m)) := by
  induction m with
  | nil => simp [insert]
  | cons hd tl ih =>
    obtain ⟨k, c⟩ := hd
    simp only [List.map_cons, List.pairwise_cons] at hs
    by_cases h1 : key < k
    · simp only [insert, h1, if_true, List.map_cons, List.pairwise_cons]
      refine ⟨?_, hs⟩
      intro a ha
      simp only [List.mem_cons] at ha
      rcases ha with rfl | ha
      · exact h1
      · exact lt_trans h1 (hs.1 a ha)
    · by_cases h2 : key = k
      · subst h2
        simp only [insert, h1, if_true, if_false, List.map_cons, List.pairwise_cons]
        exact hs
      · simp only [insert, h1, h2, if_false, List.map_cons, List.pairwise_cons]
        refine ⟨?_, ih hs.2⟩
        intro a ha
        obtain ⟨it, hit, rfl⟩ := List.mem_map.1 ha
        rcases mem_insert hit with h3 | h3
        · rw [h3]
          exact lt_of_le_of_ne (not_lt.1 h1) (Ne.symm h2)
        · exact hs.1 it.1 (List.mem_map.2 ⟨it, h3, rfl⟩)

theorem mem_erase [DecidableEq K] {key : K} {m : List (K × β)} {it : K × β}
    (h : it ∈ erase key m) : it ∈ m := by
  induction m with
  | nil => simp [erase] at h
  | cons hd tl ih =>
    obtain ⟨k, c⟩ := hd
    by_cases hk : key = k
    · simp only [erase, hk, if_true] at h
      exact List.mem_cons_of_mem _ h
    · simp only [erase, hk, if_false, List.mem_cons] at h
      rcases h with h | h
      · simp [h]
      · exact List.mem_cons_of_mem _ (ih h)

theorem sorted_erase [LinearOrder K] {m : List (K × β)}
    (hs : List.Pairwise (fun a b => a < b) (List.map Prod.fst m)) (key : K) :
    List.Pairwise (fun a b => a < b) (List.map Prod.fst (erase key m)) := by
  induction m with
  | nil => simp [erase]
  | cons hd tl ih =>
    obtain ⟨k, c⟩ := hd
    simp only [List.map_cons, List.pairwise_cons] at hs
    by_cases hk : key = k
    · simp only [erase, hk, if_true]
      exact hs.2
    · simp only [erase, hk, if_false, List.map_cons, List.pairwise_cons]
      refine ⟨?_, ih hs.2⟩
      intro a ha
      obtain ⟨it, hit, rfl⟩ := List.mem_map.1 ha
      exact hs.1 it.1 (List.mem_map.2 ⟨it, mem_erase hit, rfl⟩)

end StdMap

/-! ## Facts about key tuples and `detail::traverse` -/

namespace Keys

variable {K : Type}

theorem front_append_back : {d : Nat} → (k : Keys K (d + 1) 0) →
    k.front.append (cons k.back nil) = k
  | _, cons _ nil => rfl
  | _, cons key (cons key2 rest) => by
    have ih := front_append_back (cons key2 rest)
    simp only [front, back, append]
    rw [ih]

theorem toList_append {d r s : Nat} (p : Keys K d r) (q : Keys K r s) :
    (p.append q).toList = p.toList ++ q.toList := by
  induction p with
  | nil => rfl
  | cons key rest ih => simp [append, toList, ih]

theorem le_of_keys {d r : Nat} (p : Keys K d r) : r ≤ d := by
  induction p with
  | nil => exact le_refl _
  | cons _ _ ih => exact Nat.le_succ_of_le ih

theorem length_toList {d r : Nat} (p : Keys K d r) : p.toList.length + r = d := by
  induction p with
  | nil => simp [toList]
  | cons _ _ ih => simp [toList]; omega

theorem depth_ne_zero_of_not_below {d r : Nat} (k : Keys K d 0) (p : Keys K d r)
    (h : ∀ suf : Keys K r 0, k ≠ p.append suf) : d ≠ 0 := by
  intro hd
  subst hd
  cases p with
  | nil =>
    exact h k rfl

end Keys

namespace detail

variable {K V : Type} [LinearOrder K]

theorem traverse_eq {α : Type} (dflt : V) {d r : Nat} (keys : Keys K d r)
    (map : MapOfMaps K V d) (use : MapOfMaps K V r → α × MapOfMaps K V r) :
    traverse dflt keys map use =
      ((use (reach dflt keys map)).1, put dflt keys (use (reach dflt keys map)).2 map) := by
  induction keys with
  | nil => rfl
  | cons key rest ih =>
    simp only [traverse, at_, reach, put, ih]

theorem reach_init (dflt : V) {d r : Nat} (keys : Keys K d r) :
    reach dflt keys (init dflt d) = init dflt r := by
  induction keys with
  | nil => rfl
  | cons key rest ih =>
    simp only [reach, init, StdMap.subscript, StdMap.find, Option.getD_none]
    exact ih

end detail

namespace MultiKeyMap

variable {K V : Type} [LinearOrder K]

open detail

theorem reach_eq_node (dflt : V) {d r : Nat} (keys : Keys K d r) (map : MapOfMaps K V d) :
    reach dflt keys map = (node keys map).getD (init dflt r) := by
  induction keys with
  | nil => rfl
  | cons key rest ih =>
    simp only [reach, node, StdMap.subscript]
    cases h : StdMap.find key map with
    | none => simp [reach_init]
    | some c => simp [ih]

theorem node_put_self (dflt : V) {d r : Nat} (keys : Keys K d r) (x : MapOfMaps K V r)
    (map : MapOfMaps K V d) : node keys (put dflt keys x map) = some x := by
  induction keys with
  | nil => rfl
  | cons key rest ih =>
    simp only [put, node, StdMap.find_insert, if_true]
    exact ih _ _

theorem node_append {d r s : Nat} (p : Keys K d r) (q : Keys K r s) (map : MapOfMaps K V d) :
    node (p.append q) map = (node p map).bind (node q) := by
  induction p with
  | nil => rfl
  | cons key rest ih =>
    simp only [Keys.append, node]
    cases h : StdMap.find key map with
    | none => rfl
    | some c => simp [ih]

theorem node_init (dflt : V) {d : Nat} (k : Keys K (d + 1) 0) :
    node k (init dflt (d + 1) : MapOfMaps K V (d + 1)) = none := by
  cases k with
  | cons key rest => rfl

theorem node_put_of_not_below (dflt : V) {d r : Nat} (p : Keys K d r) (k : Keys K d 0)
    (h : ∀ suf : Keys K r 0, k ≠ p.append suf) (x : MapOfMaps K V r)
    (map : MapOfMaps K V d) : node k (put dflt p x map) = node k map := by
  induction p with
  | nil => exact absurd rfl (h k)
  | cons key rest ih =>
    cases k with
    | cons key2 rest2 =>
      simp only [put, node, StdMap.find_insert]
      by_cases hk : key2 = key
      · subst hk
        have h2 : ∀ suf, rest2 ≠ rest.append suf := by
          intro suf hs
          exact h suf (by rw [hs]; rfl)
        simp only [if_true]
        show node rest2 (put dflt rest x (StdMap.subscript (init dflt _) key2 map)) = _
        rw [ih rest2 h2]
        simp only [StdMap.subscript]
        cases hf : StdMap.find key2 map with
        | none =>
          simp only [Option.getD_none, Option.bind_none]
          have hd := Keys.depth_ne_zero_of_not_below rest2 rest h2
          obtain ⟨e, rfl⟩ := Nat.exists_eq_succ_of_ne_zero hd
          exact node_init dflt rest2
        | some c => rfl
      · simp only [hk, if_false]

theorem node_touch (dflt : V) {d r : Nat} (p : Keys K d (r + 1)) (k : Keys K d 0)
    (map : MapOfMaps K V d) :
    node k (put dflt p (reach dflt p map) map) = node k map := by
  by_cases h : ∃ suf : Keys K (r + 1) 0, k = p.append suf
  · obtain ⟨suf, rfl⟩ := h
    rw [node_append, node_append, node_put_self, reach_eq_node]
    cases hn : node p map with
    | none => exact node_init dflt suf
    | some c => rfl
  · exact node_put_of_not_below dflt p k (fun suf hs => h ⟨suf, hs⟩) _ map

theorem node_front_back {d : Nat} (k : Keys K (d + 1) 0) (map : MapOfMaps K V (d + 1)) :
    node k map = (node k.front map).bind (fun sub => StdMap.find k.back sub) := by
  conv_lhs => rw [← Keys.front_append_back k]
  rw [node_append]
  congr 1
  funext sub
  simp [node]

theorem find_back_reach (dflt : V) {d : Nat} (k : Keys K (d + 1) 0)
    (map : MapOfMaps K V (d + 1)) :
    StdMap.find k.back (reach dflt k.front map) = node k map := by
  rw [node_front_back, reach_eq_node]
  cases hn : node k.front map with
  | none => rfl
  | some c => rfl

theorem test_fst (dflt : V) {d : Nat} (k : Keys K (d + 1) 0) (map : MapOfMaps K V (d + 1)) :
    (test dflt k map).1 = (node k map).isSome := by
  simp only [test, testImpl, traverse_eq, find_back_reach]

theorem test_snd (dflt : V) {d : Nat} (k : Keys K (d + 1) 0) (map : MapOfMaps K V (d + 1)) :
    (test dflt k map).2 = put dflt k.front (reach dflt k.front map) map := by
  simp only [test, testImpl, traverse_eq]

theorem at_fst (dflt : V) {d : Nat} (k : Keys K (d + 1) 0) (map : MapOfMaps K V (d + 1)) :
    (at_ dflt k map).1 =
      match node k map with
      | none => Except.error Error.KeyNotFound
      | some v => Except.ok v := by
  simp only [at_, atImpl, traverse_eq, StdMap.at_]
  rw [find_back_reach]
  cases node k map <;> rfl

theorem at_snd (dflt : V) {d : Nat} (k : Keys K (d + 1) 0) (map : MapOfMaps K V (d + 1)) :
    (at_ dflt k map).2 = put dflt k.front (reach dflt k.front map) map := by
  simp only [at_, atImpl, traverse_eq]

theorem assign_eq (dflt : V) {d : Nat} (k : Keys K d 0) (v : V) (map : MapOfMaps K V d) :
    assign dflt k v map = put dflt k v map := by
  simp only [assign, call, traverse_eq]

theorem erase_eq (dflt : V) {d : Nat} (k : Keys K (d + 1) 0) (map : MapOfMaps K V (d + 1)) :
    erase dflt k map =
      ((node k map).isSome,
        put dflt k.front (StdMap.erase k.back (reach dflt k.front map)) map) := by
  have h := find_back_reach dflt k map
  simp only [erase, eraseImpl, traverse_eq]
  cases hf : StdMap.find k.back (reach dflt k.front map) with
  | none =>
    rw [hf] at h
    rw [← h, StdMap.erase_eq_self hf]
    rfl
  | some c =>
    rw [hf] at h
    rw [← h]
    rfl

theorem WF_init (dflt : V) (d : Nat) : WF d (init dflt d : MapOfMaps K V d) := by
  cases d with
  | zero => trivial
  | succ e =>
    refine ⟨List.Pairwise.nil, ?_⟩
    intro it hit
    cases hit

theorem WF_find {d : Nat} {map : MapOfMaps K V (d + 1)} (h : WF (d + 1) map) {key : K}
    {c : MapOfMaps K V d} (hf : StdMap.find key map = some c) : WF d c :=
  h.2 (key, c) (StdMap.find_some_mem hf)

theorem WF_node {d r : Nat} (p : Keys K d r) {map : MapOfMaps K V d} (h : WF d map)
    {c : MapOfMaps K V r} (hn : node p map = some c) : WF r c := by
  induction p with
  | nil =>
    simp only [node, Option.some.injEq] at hn
    exact hn ▸ h
  | cons key rest ih =>
    simp only [node] at hn
    cases hf : StdMap.find key map with
    | none => rw [hf] at hn; cases hn
    | some x =>
      rw [hf] at hn
      exact ih (WF_find h hf) hn

theorem WF_reach (dflt : V) {d r : Nat} (p : Keys K d r) {map : MapOfMaps K V d}
    (h : WF d map) : WF r (reach dflt p map) := by
  rw [reach_eq_node]
  cases hn : node p map with
  | none => exact WF_init dflt r
  | some c => exact WF_node p h hn

theorem put_node_self (dflt : V) {d r : Nat} (p : Keys K d r) {map : MapOfMaps K V d}
    (h : WF d map) {c : MapOfMaps K V r} (hn : node p map = some c) :
    put dflt p c map = map := by
  induction p with
  | nil =>
    simp only [node, Option.some.injEq] at hn
    exact hn.symm
  | cons key rest ih =>
    simp only [node] at hn
    cases hf : StdMap.find key map with
    | none => rw [hf] at hn; cases hn
    | some x =>
      rw [hf] at hn
      simp only [put, StdMap.subscript, hf, Option.getD_some]
      rw [ih (WF_find h hf) hn]
      exact StdMap.insert_eq_self h.1 hf

theorem touch_eq_iff (dflt : V) {d r : Nat} (p : Keys K d r) {map : MapOfMaps K V d}
    (h : WF d map) :
    put dflt p (reach dflt p map) map = map ↔ (node p map).isSome = true := by
  constructor
  · intro he
    have := node_put_self dflt p (reach dflt p map) map
    rw [he] at this
    simp [this]
  · intro hs
    obtain ⟨c, hc⟩ := Option.isSome_iff_exists.1 hs
    rw [reach_eq_node, hc]
    exact put_node_self dflt p h hc

theorem node_erase (dflt : V) {d : Nat} (k : Keys K (d + 1) 0) {map : MapOfMaps K V (d + 1)}
    (h : WF (d + 1) map) (k2 : Keys K (d + 1) 0) :
    node k2 (erase dflt k map).2 = if k2 = k then none else node k2 map := by
  rw [erase_eq]
  simp only
  by_cases hk : k2 = k
  · subst hk
    simp only [if_true]
    rw [node_front_back, node_put_self]
    exact StdMap.find_erase_self (WF_reach dflt k2.front h).1 k2.back
  · simp only [hk, if_false]
    by_cases hp : ∃ suf : Keys K 1 0, k2 = k.front.append suf
    · obtain ⟨suf, rfl⟩ := hp
      cases suf with
      | cons key rest =>
        cases rest with
        | nil =>
          have hne : key ≠ k.back := by
            intro he
            apply hk
            rw [he, Keys.front_append_back]
          rw [node_append, node_append, node_put_self]
          have h1 : node (Keys.cons key Keys.nil)
              (StdMap.erase k.back (reach dflt k.front map)) =
              node (Keys.cons key (Keys.nil : Keys K 0 0)) (reach dflt k.front map) := by
            simp only [node]
            rw [StdMap.find_erase_ne hne]
          show node (Keys.cons key Keys.nil)
              (StdMap.erase k.back (reach dflt k.front map)) = _
          rw [h1, reach_eq_node]
          cases hn : node k.front map with
          | none => rfl
          | some c => rfl
    · exact node_put_of_not_below dflt k.front k2 (fun suf hs => hp ⟨suf, hs⟩) _ map

end MultiKeyMap

/-! ## The ascending key order is kept by every operation -/

namespace MultiKeyMap

variable {K V : Type} [LinearOrder K]

open detail

theorem WF_put (dflt : V) {d r : Nat} (p : Keys K d r) {map : MapOfMaps K V d}
    (h : WF d map) {x : MapOfMaps K V r} (hx : WF r x) : WF d (put dflt p x map) := by
  induction p with
  | nil => exact hx
  | cons key rest ih =>
    have hsub : WF _ (StdMap.subscript (init dflt _) key map) := by
      simp only [StdMap.subscript]
      cases hf : StdMap.find key map with
      | none => exact WF_init dflt _
      | some c => exact WF_find h hf
    refine ⟨StdMap.sorted_insert h.1 key _, ?_⟩
    intro it hit
    rcases StdMap.mem_insert hit with h1 | h1
    · rw [h1]
      exact ih hsub hx
    · exact h.2 it h1

theorem WF_assign (dflt : V) {d : Nat} (k : Keys K d 0) (v : V) {map : MapOfMaps K V d}
    (h : WF d map) : WF d (assign dflt k v map) := by
  rw [assign_eq]
  exact WF_put dflt k h trivial

theorem WF_test (dflt : V) {d : Nat} (k : Keys K (d + 1) 0) {map : MapOfMaps K V (d + 1)}
    (h : WF (d + 1) map) : WF (d + 1) (test dflt k map).2 := by
  rw [test_snd]
  exact WF_put dflt k.front h (WF_reach dflt k.front h)

theorem WF_at (dflt : V) {d : Nat} (k : Keys K (d + 1) 0) {map : MapOfMaps K V (d + 1)}
    (h : WF (d + 1) map) : WF (d + 1) (at_ dflt k map).2 := by
  rw [at_snd]
  exact WF_put dflt k.front h (WF_reach dflt k.front h)

theorem WF_erase (dflt : V) {d : Nat} (k : Keys K (d + 1) 0) {map : MapOfMaps K V (d + 1)}
    (h : WF (d + 1) map) : WF (d + 1) (erase dflt k map).2 := by
  rw [erase_eq]
  refine WF_put dflt k.front h ?_
  have hr := WF_reach dflt k.front h
  exact ⟨StdMap.sorted_erase hr.1 k.back, fun it hit => hr.2 it (StdMap.mem_erase hit)⟩

theorem values_snd (dflt : V) {d r : Nat} (vs : List V) (ks : List (List K))
    (p : Keys K d r) (map : MapOfMaps K V d) :
    (values dflt vs ks p map).2 = put dflt p (reach dflt p map) map := by
  simp only [values, valuesImpl, traverse_eq]

theorem WF_values (dflt : V) {d r : Nat} (vs : List V) (ks : List (List K))
    (p : Keys K d r) {map : MapOfMaps K V d} (h : WF d map) :
    WF d (values dflt vs ks p map).2 := by
  rw [values_snd]
  exact WF_put dflt p h (WF_reach dflt p h)

theorem WF_find_snd (dflt : V) (address : Nat) {d : Nat} (k : Keys K (d + 1) 0)
    {map : MapOfMaps K V (d + 1)} (h : WF (d + 1) map) :
    WF (d + 1) (find dflt address k map).2 := by
  simp only [find]
  split
  · exact WF_values dflt [] [] _ (WF_test dflt k h)
  · exact WF_values dflt [] [] _ (WF_test dflt k h)

end MultiKeyMap

namespace Example

theorem emptyMap_WF : MultiKeyMap.WF 2 emptyMap :=
  ⟨List.Pairwise.nil, fun _ h => nomatch h⟩

theorem abMap_WF : MultiKeyMap.WF 2 abMap := by
  refine ⟨by decide, ?_⟩
  intro it hit
  have hit2 : it ∈ [((1 : Nat), [((24 : Nat), (1 : Nat)), (25, 2)]), (2, [(24, 3)])] := hit
  simp only [List.mem_cons, List.mem_singleton, List.not_mem_nil, or_false] at hit2
  rcases hit2 with rfl | rfl
  · exact ⟨by decide, fun _ _ => trivial⟩
  · exact ⟨by decide, fun _ _ => trivial⟩

end Example

/-! ## Facts about `detail::SubTreeValues`, `values` and `find` -/

section Collector

variable {K V : Type}

open MultiKeyMap detail

theorem subTreeValues_eq (r : Nat) (sub : MapOfMaps K V r) (out : List V × List (List K))
    (tuple : List K) :
    SubTreeValues r sub out tuple =
      (out.1 ++ List.map Prod.snd (entries r sub),
        out.2 ++ List.map (fun e => tuple ++ e.1) (entries r sub)) := by
  induction r generalizing out tuple with
  | zero => simp [SubTreeValues, entries]
  | succ r ih =>
    have aux : ∀ (l : List (K × MapOfMaps K V r)) (acc : List V × List (List K)),
        List.foldl (fun acc (it : K × MapOfMaps K V r) =>
          SubTreeValues r it.2 acc (tuple ++ [it.1])) acc l =
        (acc.1 ++ List.map Prod.snd (entries (r + 1) l),
          acc.2 ++ List.map (fun e => tuple ++ e.1) (entries (r + 1) l)) := by
      intro l
      induction l with
      | nil => intro acc; simp [entries]
      | cons hd tl ihl =>
        intro acc
        rw [List.foldl_cons, ihl, ih]
        simp [entries, List.map_append, List.append_assoc, Function.comp_def]
    exact aux sub out

theorem entries_length (r : Nat) (sub : MapOfMaps K V r) :
    ∀ e ∈ entries r sub, e.1.length = r := by
  induction r with
  | zero =>
    intro e he
    simp only [entries, List.mem_singleton] at he
    rw [he]
    rfl
  | succ r ih =>
    intro e he
    simp only [entries, List.mem_flatMap, List.mem_map] at he
    obtain ⟨it, _, e2, he2, rfl⟩ := he
    simp [ih it.2 e2 he2]

end Collector

section Values

variable {K V : Type} [LinearOrder K]

open MultiKeyMap detail

theorem values_eq (dflt : V) {d r : Nat} (vs : List V) (ks : List (List K))
    (p : Keys K d r) (map : MapOfMaps K V d) :
    values dflt vs ks p map =
      (SubTreeValues r (reach dflt p map) (vs, ks) p.toList,
        put dflt p (reach dflt p map) map) := by
  simp only [values, valuesImpl, traverse_eq]

theorem find_of_stored (dflt : V) (address : Nat) {d : Nat} (k : Keys K (d + 1) 0) (v : V)
    (map : MapOfMaps K V (d + 1)) (hk : node k map = some v) :
    find dflt address k map =
      (⟨⟨address, [v]⟩, ⟨some address, 0⟩⟩,
        put dflt k v (put dflt k.front (reach dflt k.front map) map)) := by
  have ht : (test dflt k map).1 = true := by rw [test_fst, hk]; rfl
  have hr : reach dflt k (put dflt k.front (reach dflt k.front map) map) = v := by
    rw [reach_eq_node, node_touch, hk]
    rfl
  simp only [find, ht, Bool.true_eq_false, if_false, begin, values_eq, test_snd, hr]
  rfl

theorem entries_mem (r : Nat) (sub : MapOfMaps K V r) (hwf : WF r sub) (l : List K) (v : V) :
    (l, v) ∈ entries r sub ↔ ∃ suf : Keys K r 0, l = suf.toList ∧ node suf sub = some v := by
  induction r generalizing l with
  | zero =>
    simp only [entries, List.mem_singleton, Prod.mk.injEq]
    constructor
    · rintro ⟨rfl, rfl⟩
      exact ⟨Keys.nil, rfl, rfl⟩
    · rintro ⟨suf, rfl, hn⟩
      cases suf with
      | nil =>
        simp only [node, Option.some.injEq] at hn
        exact ⟨rfl, hn.symm⟩
  | succ r ih =>
    simp only [entries, List.mem_flatMap, List.mem_map, Prod.mk.injEq]
    constructor
    · rintro ⟨⟨key, c⟩, hit, ⟨l2, v2⟩, he, hl, hv⟩
      simp only at hl hv
      subst hl hv
      obtain ⟨suf, hs, hn⟩ := (ih c (hwf.2 (key, c) hit) l2).1 he
      refine ⟨Keys.cons key suf, by simp [Keys.toList, hs], ?_⟩
      simp only [node]
      rw [(StdMap.mem_iff_find hwf.1 key c).1 hit]
      exact hn
    · rintro ⟨suf, rfl, hn⟩
      cases suf with
      | cons key rest =>
        simp only [node] at hn
        cases hf : StdMap.find key sub with
        | none => rw [hf] at hn; cases hn
        | some c =>
          rw [hf] at hn
          have hmem := StdMap.find_some_mem hf
          refine ⟨(key, c), hmem, (rest.toList, v), ?_, rfl, rfl⟩
          exact (ih c (hwf.2 (key, c) hmem) rest.toList).2 ⟨rest, rfl, hn⟩

theorem entries_sorted (r : Nat) (sub : MapOfMaps K V r) (hwf : WF r sub) :
    List.Pairwise (fun a b => List.Lex (fun x y : K => x < y) a.1 b.1) (entries r sub) := by
  induction r with
  | zero => simp [entries]
  | succ r ih =>
    have aux : ∀ (l : List (K × MapOfMaps K V r)),
        List.Pairwise (fun a b => a < b) (List.map Prod.fst l) →
        (∀ it ∈ l, WF r it.2) →
        List.Pairwise (fun a b => List.Lex (fun x y : K => x < y) a.1 b.1)
          (entries (r + 1) l) := by
      intro l
      induction l with
      | nil => intro _ _; simp [entries]
      | cons hd tl ihl =>
        intro hs hw
        simp only [List.map_cons, List.pairwise_cons] at hs
        have htl := ihl hs.2 (fun it hit => hw it (List.mem_cons_of_mem _ hit))
        have hhd := ih hd.2 (hw hd (List.mem_cons_self _ _))
        simp only [entries, List.flatMap_cons, List.pairwise_append]
        refine ⟨?_, htl, ?_⟩
        · rw [List.pairwise_map]
          exact hhd.imp (fun h => List.Lex.cons h)
        · intro a ha b hb
          simp only [List.mem_map] at ha
          simp only [List.mem_flatMap, List.mem_map] at hb
          obtain ⟨e, _, rfl⟩ := ha
          obtain ⟨it, hit, e2, _, rfl⟩ := hb
          exact List.Lex.rel (hs.1 it.1 (List.mem_map.2 ⟨it, hit, rfl⟩))
    exact aux sub hwf.1 hwf.2

theorem values_fst (dflt : V) {d r : Nat} (p : Keys K d r) (map : MapOfMaps K V d) :
    (values dflt [] [] p map).1 =
      (List.map Prod.snd (entries r (reach dflt p map)),
        List.map (fun e => p.toList ++ e.1) (entries r (reach dflt p map))) := by
  rw [values_eq, subTreeValues_eq]
  simp

end Values

/-! ## Facts about Map Nodes that stay, and about containers that store the same -/

namespace Keys

variable {K : Type}

theorem append_nil {d r : Nat} (p : Keys K d r) : p.append nil = p := by
  induction p with
  | nil => rfl
  | cons key rest ih => simp only [append, ih]

theorem eq_nil_of_same {d : Nat} (q : Keys K d d) : q = nil := by
  cases q with
  | nil => rfl
  | cons key rest =>
    have := le_of_keys rest
    omega

end Keys

section NodesStay

variable {K V : Type} [LinearOrder K]

open MultiKeyMap detail

theorem node_isSome_put (dflt : V) {d r : Nat} (p : Keys K d r) :
    ∀ {r2 : Nat} (q : Keys K d r2), r ≤ r2 → ∀ (x : MapOfMaps K V r) (map : MapOfMaps K V d),
      (node q map).isSome = true → (node q (put dflt p x map)).isSome = true := by
  induction p with
  | nil =>
    intro r2 q hle x map _
    have h2 := Keys.le_of_keys q
    have h3 : r2 = _ := Nat.le_antisymm h2 hle
    subst h3
    rw [Keys.eq_nil_of_same q]
    rfl
  | cons key rest ih =>
    intro r2 q hle x map hq
    cases q with
    | nil => rfl
    | cons key2 rest2 =>
      simp only [put, node, StdMap.find_insert]
      simp only [node] at hq
      by_cases hk : key2 = key
      · subst hk
        simp only [if_true]
        cases hf : StdMap.find key2 map with
        | none => rw [hf] at hq; cases hq
        | some c =>
          rw [hf] at hq
          simp only [StdMap.subscript, hf, Option.getD_some]
          exact ih rest2 hle x c hq
      · simp only [hk, if_false]
        exact hq

theorem node_put_of_diverge (dflt : V) {d r : Nat} (p : Keys K d r) :
    ∀ {r2 : Nat} (q : Keys K d r2), (∀ suf : Keys K r r2, q ≠ p.append suf) →
      (∀ suf : Keys K r2 r, p ≠ q.append suf) →
      ∀ (x : MapOfMaps K V r) (map : MapOfMaps K V d),
        node q (put dflt p x map) = node q map := by
  induction p with
  | nil =>
    intro r2 q h1 _ x map
    exact absurd rfl (h1 q)
  | cons key rest ih =>
    intro r2 q h1 h2 x map
    cases q with
    | nil => exact absurd rfl (h2 (Keys.cons key rest))
    | cons key2 rest2 =>
      simp only [put, node, StdMap.find_insert]
      by_cases hk : key2 = key
      · subst hk
        have h1b : ∀ suf, rest2 ≠ rest.append suf := by
          intro suf hs
          exact h1 suf (by rw [hs]; rfl)
        have h2b : ∀ suf, rest ≠ rest2.append suf := by
          intro suf hs
          exact h2 suf (by rw [hs]; rfl)
        simp only [if_true]
        show node rest2 (put dflt rest x (StdMap.subscript (init dflt _) key2 map)) = _
        rw [ih rest2 h1b h2b]
        simp only [StdMap.subscript]
        cases hf : StdMap.find key2 map with
        | none =>
          simp only [Option.getD_none, Option.bind_none]
          cases rest2 with
          | nil => exact absurd rfl (h2b rest)
          | cons key3 rest3 => rfl
        | some c => rfl
      · simp only [hk, if_false]

theorem entries_eq_of_node_eq (r : Nat) (a b : MapOfMaps K V r) (ha : WF r a) (hb : WF r b)
    (h : ∀ suf : Keys K r 0, node suf a = node suf b) : entries r a = entries r b := by
  have hirr : ∀ x y : List K × V,
      List.Lex (fun x y : K => x < y) x.1 y.1 → x ≠ y := by
    intro x y hxy he
    rw [he] at hxy
    exact List.Lex.to_ne (List.Lex.imp (fun _ _ => ne_of_lt) _ _ hxy) rfl
  haveI : IsAntisymm (List K × V) (fun x y => List.Lex (fun x y : K => x < y) x.1 y.1) :=
    ⟨fun x y h1 h2 => absurd h2 (asymm (r := List.Lex (fun x y : K => x < y)) h1)⟩
  have hsa := entries_sorted r a ha
  have hsb := entries_sorted r b hb
  refine List.eq_of_perm_of_sorted ?_ hsa hsb
  refine (List.perm_ext_iff_of_nodup (hsa.imp (hirr _ _)) (hsb.imp (hirr _ _))).2 ?_
  rintro ⟨l, v⟩
  rw [entries_mem r a ha, entries_mem r b hb]
  constructor
  · rintro ⟨suf, hl, hn⟩
    exact ⟨suf, hl, by rw [← h]; exact hn⟩
  · rintro ⟨suf, hl, hn⟩
    exact ⟨suf, hl, by rw [h]; exact hn⟩

theorem values_nil_eq_of_node_eq (dflt : V) {d : Nat} (a b : MapOfMaps K V d) (ha : WF d a)
    (hb : WF d b) (h : ∀ k : Keys K d 0, node k a = node k b) :
    (values dflt [] [] (Keys.nil : Keys K d d) a).1 =
      (values dflt [] [] (Keys.nil : Keys K d d) b).1 := by
  rw [values_fst, values_fst]
  simp only [reach]
  rw [entries_eq_of_node_eq d a b ha hb h]

theorem node_find_snd (dflt : V) (address : Nat) {d : Nat} (k : Keys K (d + 1) 0)
    (map : MapOfMaps K V (d + 1)) (k2 : Keys K (d + 1) 0) :
    node k2 (find dflt address k map).2 = node k2 map := by
  cases hk : node k map with
  | none =>
    have ht : (test dflt k map).1 = false := by rw [test_fst, hk]; rfl
    simp only [find, ht, if_true, end_, values_snd, test_snd, put, reach]
    exact node_touch dflt k.front k2 map
  | some v =>
    rw [find_of_stored dflt address k v map hk]
    simp only
    by_cases h2 : k2 = k
    · subst h2
      rw [node_put_self, hk]
    · rw [node_put_of_not_below dflt k k2 ?_ v, node_touch]
      intro suf hs
      rw [Keys.eq_nil_of_same suf] at hs
      exact h2 (hs.trans (Keys.append_nil k))

theorem eraseAll_spec (dflt : V) {d : Nat} (ks : List (Keys K (d + 1) 0)) :
    ∀ (map : MapOfMaps K V (d + 1)), WF (d + 1) map →
      WF (d + 1) (List.foldl (fun m k => (erase dflt k m).2) map ks) ∧
      (∀ k2 : Keys K (d + 1) 0,
        node k2 (List.foldl (fun m k => (erase dflt k m).2) map ks) =
          if k2 ∈ ks then none else node k2 map) ∧
      ∀ {r2 : Nat} (q : Keys K (d + 1) (r2 + 1)), (node q map).isSome = true →
        (node q (List.foldl (fun m k => (erase dflt k m).2) map ks)).isSome = true := by
  induction ks with
  | nil =>
    intro map h
    exact ⟨h, fun k2 => by simp, fun q hq => hq⟩
  | cons k ks ih =>
    intro map h
    obtain ⟨h1, h2, h3⟩ := ih (erase dflt k map).2 (WF_erase dflt k h)
    refine ⟨h1, ?_, ?_⟩
    · intro k2
      rw [List.foldl_cons, h2 k2, node_erase dflt k h k2]
      by_cases hm : k2 ∈ ks
      · simp [hm]
      · by_cases he : k2 = k
        · simp [he]
        · simp [hm, he]
    · intro r2 q hq
      rw [List.foldl_cons]
      apply h3 q
      rw [erase_eq]
      exact node_isSome_put dflt k.front q (Nat.succ_le_succ (Nat.zero_le _)) _ map hq

end NodesStay

namespace Example

theorem abMap_under_one (suf : Keys Nat 1 0)
    (h : (MultiKeyMap.node ((key1 1).append suf) abMap).isSome = true) :
    (key1 1).append suf ∈ [key2 1 24, key2 1 25] := by
  cases suf with
  | cons key rest =>
    cases rest with
    | nil =>
      have hk : key = 24 ∨ key = 25 := by
        by_contra hne
        push_neg at hne
        have hnone : MultiKeyMap.node ((key1 1).append (Keys.cons key Keys.nil)) abMap =
            none := by
          show (StdMap.find key ([(24, 1), (25, 2)] : List (Nat × Nat))).bind _ = none
          simp [StdMap.find, hne.1, hne.2]
        rw [hnone] at h
        cases h
      rcases hk with rfl | rfl
      · exact List.mem_cons_self _ _
      · exact List.mem_cons_of_mem _ (List.mem_cons_self _ _)

end Example

/-! ## Facts about what `values` collects below a prefix -/

namespace Keys

variable {K : Type}

theorem toList_injective {d r : Nat} (a : Keys K d r) :
    ∀ b : Keys K d r, a.toList = b.toList → a = b := by
  induction a with
  | nil =>
    intro b _
    exact (eq_nil_of_same b).symm
  | cons key rest ih =>
    intro b hb
    cases b with
    | nil =>
      have := le_of_keys rest
      omega
    | cons key2 rest2 =>
      simp only [toList, List.cons.injEq] at hb
      rw [hb.1, ih rest2 hb.2]

end Keys

section Collected

variable {K V : Type} [LinearOrder K]

open MultiKeyMap detail

theorem node_reach_iff (dflt : V) {d r : Nat} (p : Keys K d (r + 1)) (map : MapOfMaps K V d)
    (suf : Keys K (r + 1) 0) (v : V) :
    node suf (reach dflt p map) = some v ↔ node (p.append suf) map = some v := by
  rw [node_append, reach_eq_node]
  cases hp : node p map with
  | none =>
    constructor
    · intro hn
      exact absurd ((node_init dflt suf).symm.trans hn) (by simp)
    · intro hn
      cases hn
  | some c => rfl

theorem collected_spec (dflt : V) {d r : Nat} (p : Keys K d (r + 1)) (map : MapOfMaps K V d)
    (hwf : WF d map) :
    List.Pairwise (List.Lex (fun x y : K => x < y))
        (List.map (fun e : List K × V => p.toList ++ e.1)
          (entries (r + 1) (reach dflt p map))) ∧
      ∀ (l : List K) (v : V),
        (l, v) ∈ List.zip
            (List.map (fun e : List K × V => p.toList ++ e.1)
              (entries (r + 1) (reach dflt p map)))
            (List.map Prod.snd (entries (r + 1) (reach dflt p map))) ↔
          ∃ suf : Keys K (r + 1) 0,
            l = (p.append suf).toList ∧ node (p.append suf) map = some v := by
  constructor
  · rw [List.pairwise_map]
    exact (entries_sorted (r + 1) _ (WF_reach dflt p hwf)).imp
      (fun h => List.Lex.append_left _ h _)
  · intro l v
    rw [List.zip_map', List.mem_map]
    constructor
    · rintro ⟨⟨l2, v2⟩, he, heq⟩
      simp only [Prod.mk.injEq] at heq
      obtain ⟨rfl, rfl⟩ := heq
      obtain ⟨suf, rfl, hn⟩ := (entries_mem (r + 1) _ (WF_reach dflt p hwf) l2 v2).1 he
      exact ⟨suf, (Keys.toList_append p suf).symm, (node_reach_iff dflt p map suf v2).1 hn⟩
    · rintro ⟨suf, rfl, hn⟩
      refine ⟨(suf.toList, v), ?_, by simp [Keys.toList_append]⟩
      exact (entries_mem (r + 1) _ (WF_reach dflt p hwf) suf.toList v).2
        ⟨suf, rfl, (node_reach_iff dflt p map suf v).2 hn⟩

theorem collected_count (dflt : V) {d r : Nat} (p : Keys K d (r + 1)) (map : MapOfMaps K V d)
    (hwf : WF d map) (full : List (Keys K d 0)) (hnd : full.Nodup)
    (hfull : ∀ k : Keys K d 0, k ∈ full ↔
      ∃ suf : Keys K (r + 1) 0, k = p.append suf ∧ (node k map).isSome = true) :
    (entries (r + 1) (reach dflt p map)).length = full.length := by
  have hs := entries_sorted (r + 1) _ (WF_reach dflt p hwf)
  have hnd1 : (List.map (fun e : List K × V => p.toList ++ e.1)
      (entries (r + 1) (reach dflt p map))).Nodup := by
    rw [List.Nodup, List.pairwise_map]
    refine hs.imp ?_
    intro a b hab he
    have he2 : a.1 = b.1 := List.append_cancel_left he
    rw [he2] at hab
    exact List.Lex.to_ne (List.Lex.imp (fun _ _ => ne_of_lt) _ _ hab) rfl
  have hnd2 : (List.map (fun k : Keys K d 0 => k.toList) full).Nodup :=
    hnd.map (fun a b hab => Keys.toList_injective a b hab)
  have hperm : (List.map (fun e : List K × V => p.toList ++ e.1)
      (entries (r + 1) (reach dflt p map))).Perm
      (List.map (fun k : Keys K d 0 => k.toList) full) := by
    refine (List.perm_ext_iff_of_nodup hnd1 hnd2).2 ?_
    intro l
    simp only [List.mem_map]
    constructor
    · rintro ⟨⟨l2, v⟩, he, rfl⟩
      obtain ⟨suf, rfl, hn⟩ := (entries_mem (r + 1) _ (WF_reach dflt p hwf) l2 v).1 he
      have hn2 := (node_reach_iff dflt p map suf v).1 hn
      exact ⟨p.append suf, (hfull _).2 ⟨suf, rfl, by rw [hn2]; rfl⟩,
        Keys.toList_append p suf⟩
    · rintro ⟨k, hk, rfl⟩
      obtain ⟨suf, rfl, hsome⟩ := (hfull k).1 hk
      obtain ⟨v, hv⟩ := Option.isSome_iff_exists.1 hsome
      refine ⟨(suf.toList, v), ?_, (Keys.toList_append p suf).symm⟩
      exact (entries_mem (r + 1) _ (WF_reach dflt p hwf) suf.toList v).2
        ⟨suf, rfl, (node_reach_iff dflt p map suf v).2 hv⟩
  have hlen := hperm.length_eq
  simpa using hlen

end Collected

namespace Example

theorem abMap_full_under_one (k : Keys Nat 2 0) :
    k ∈ [key2 1 24, key2 1 25] ↔
      ∃ suf : Keys Nat 1 0, k = (key1 1).append suf ∧
        (MultiKeyMap.node k abMap).isSome = true := by
  constructor
  · intro hk
    simp only [List.mem_cons, List.mem_singleton, List.not_mem_nil, or_false] at hk
    rcases hk with rfl | rfl
    · exact ⟨Keys.cons 24 Keys.nil, rfl, rfl⟩
    · exact ⟨Keys.cons 25 Keys.nil, rfl, rfl⟩
  · rintro ⟨suf, rfl, h⟩
    exact abMap_under_one suf h

end Example

/-! ## The claims about `MultiKeyMap` -/

section Claims

variable {K V : Type} [LinearOrder K]

open MultiKeyMap detail

/-- C3: after `v` has been written through compound-key access, `map(k) = v`, the call
`test(k)` returns true and the call `at(k)` returns `v`. -/
theorem assign_then_test_and_at (dflt : V) {d : Nat} (k : Keys K (d + 1) 0) (v : V)
    (multiKeyMap : MapOfMaps K V (d + 1)) :
    (test dflt k (assign dflt k v multiKeyMap)).1 = true ∧
      (at_ dflt k (assign dflt k v multiKeyMap)).1 = Except.ok v := by
  rw [test_fst, at_fst, assign_eq, node_put_self]
  exact ⟨rfl, rfl⟩

/-- C4: when a value `v` is stored at the full key `k`, `at(k)` returns `v` and `test(k)`
returns true; when no value is stored at `k`, `at(k)` fails with `KeyNotFound` and
`test(k)` returns false. -/
theorem at_and_test_follow_stored (dflt : V) {d : Nat} (k : Keys K (d + 1) 0)
    (multiKeyMap : MapOfMaps K V (d + 1)) :
    (∀ v : V, node k multiKeyMap = some v →
        (at_ dflt k multiKeyMap).1 = Except.ok v ∧ (test dflt k multiKeyMap).1 = true) ∧
      (node k multiKeyMap = none →
        (at_ dflt k multiKeyMap).1 = Except.error Error.KeyNotFound ∧
          (test dflt k multiKeyMap).1 = false) := by
  constructor
  · intro v hv
    rw [test_fst, at_fst, hv]
    exact ⟨rfl, rfl⟩
  · intro hn
    rw [test_fst, at_fst, hn]
    exact ⟨rfl, rfl⟩

/-- Witness of C4 on the container `abMap`: the key `(1, 25)` holds 2, the key `(26, 17)`
holds nothing. -/
theorem at_and_test_follow_stored_witness :
    ((at_ 0 (Example.key2 1 25) Example.abMap).1 = Except.ok 2 ∧
        (test 0 (Example.key2 1 25) Example.abMap).1 = true) ∧
      ((at_ 0 (Example.key2 26 17) Example.abMap).1 = Except.error Error.KeyNotFound ∧
        (test 0 (Example.key2 26 17) Example.abMap).1 = false) :=
  ⟨(at_and_test_follow_stored 0 (Example.key2 1 25) Example.abMap).1 2 rfl,
    (at_and_test_follow_stored 0 (Example.key2 26 17) Example.abMap).2 rfl⟩

/-- C5, counterexample: on the container without entries `at(26, 17)` and `test(26, 17)`
fail, and both leave a new empty Map Node under the key 26. -/
theorem failed_lookup_creates_node :
    node (Example.key2 26 17) Example.emptyMap = none ∧
      (at_ 0 (Example.key2 26 17) Example.emptyMap).1 = Except.error Error.KeyNotFound ∧
      (test 0 (Example.key2 26 17) Example.emptyMap).1 = false ∧
      (at_ 0 (Example.key2 26 17) Example.emptyMap).2 ≠ Example.emptyMap ∧
      (test 0 (Example.key2 26 17) Example.emptyMap).2 ≠ Example.emptyMap ∧
      node (Example.key1 26) (at_ 0 (Example.key2 26 17) Example.emptyMap).2 = some [] ∧
      node (Example.key1 26) (test 0 (Example.key2 26 17) Example.emptyMap).2 = some [] := by
  refine ⟨rfl, rfl, rfl, ?_, ?_, rfl, rfl⟩
  · intro h
    exact List.cons_ne_nil _ _ (show ([(26, [])] : List (Nat × List (Nat × Nat))) = [] from h)
  · intro h
    exact List.cons_ne_nil _ _ (show ([(26, [])] : List (Nat × List (Nat × Nat))) = [] from h)

/-- C5, amended: a failing checked lookup changes no stored value. When no value is stored
at `k`, `at(k)` fails with `KeyNotFound`, `test(k)` returns false, every full key holds
after either call what it held before, and the nested map structure is exactly as it was
if and only if the Map Node under the first `n-2` keys of `k` was already there; after
either call that Map Node is there. -/
theorem failed_lookup_frame (dflt : V) {d : Nat} (k : Keys K (d + 1) 0)
    (multiKeyMap : MapOfMaps K V (d + 1)) (hwf : WF (d + 1) multiKeyMap)
    (hk : node k multiKeyMap = none) :
    (at_ dflt k multiKeyMap).1 = Except.error Error.KeyNotFound ∧
      (test dflt k multiKeyMap).1 = false ∧
      (∀ k2 : Keys K (d + 1) 0,
        node k2 (at_ dflt k multiKeyMap).2 = node k2 multiKeyMap ∧
          node k2 (test dflt k multiKeyMap).2 = node k2 multiKeyMap) ∧
      ((at_ dflt k multiKeyMap).2 = multiKeyMap ↔ (node k.front multiKeyMap).isSome = true) ∧
      ((test dflt k multiKeyMap).2 = multiKeyMap ↔
        (node k.front multiKeyMap).isSome = true) ∧
      (node k.front (at_ dflt k multiKeyMap).2).isSome = true ∧
      (node k.front (test dflt k multiKeyMap).2).isSome = true := by
  refine ⟨?_, ?_, ?_, ?_, ?_, ?_, ?_⟩
  · rw [at_fst, hk]
  · rw [test_fst, hk]
    rfl
  · intro k2
    rw [at_snd, test_snd]
    exact ⟨node_touch dflt k.front k2 multiKeyMap, node_touch dflt k.front k2 multiKeyMap⟩
  · rw [at_snd]
    exact touch_eq_iff dflt k.front hwf
  · rw [test_snd]
    exact touch_eq_iff dflt k.front hwf
  · rw [at_snd, node_put_self]
    rfl
  · rw [test_snd, node_put_self]
    rfl

/-- Witness of C5, amended, on the container `abMap` and the absent key `(26, 17)`. -/
theorem failed_lookup_frame_witness :
    WF 2 Example.abMap ∧ node (Example.key2 26 17) Example.abMap = none ∧
      (at_ 0 (Example.key2 26 17) Example.abMap).1 = Except.error Error.KeyNotFound ∧
      (test 0 (Example.key2 26 17) Example.abMap).1 = false :=
  ⟨Example.abMap_WF, rfl,
    (failed_lookup_frame 0 (Example.key2 26 17) Example.abMap Example.abMap_WF rfl).1,
    (failed_lookup_frame 0 (Example.key2 26 17) Example.abMap Example.abMap_WF rfl).2.1⟩

/-- C7: when a value is stored at the full key `k`, `erase(k)` returns true, afterwards
`test(k)` is false, and for every other full key `test` and `at` return what they
returned before the erase. -/
theorem erase_stored (dflt : V) {d : Nat} (k : Keys K (d + 1) 0) (v : V)
    (multiKeyMap : MapOfMaps K V (d + 1)) (hwf : WF (d + 1) multiKeyMap)
    (hk : node k multiKeyMap = some v) :
    (erase dflt k multiKeyMap).1 = true ∧
      (test dflt k (erase dflt k multiKeyMap).2).1 = false ∧
      ∀ k2 : Keys K (d + 1) 0, k2 ≠ k →
        (test dflt k2 (erase dflt k multiKeyMap).2).1 = (test dflt k2 multiKeyMap).1 ∧
          (at_ dflt k2 (erase dflt k multiKeyMap).2).1 = (at_ dflt k2 multiKeyMap).1 := by
  refine ⟨?_, ?_, ?_⟩
  · rw [erase_eq, hk]
    rfl
  · rw [test_fst, node_erase dflt k hwf k, if_pos rfl]
    rfl
  · intro k2 hne
    rw [test_fst, test_fst, at_fst, at_fst, node_erase dflt k hwf k2, if_neg hne]
    exact ⟨rfl, rfl⟩

/-- Witness of C7 on the container `abMap`: after `erase(1, 24)` the key `(1, 24)` tests
false and the key `(1, 25)` still tests true. -/
theorem erase_stored_witness :
    WF 2 Example.abMap ∧ node (Example.key2 1 24) Example.abMap = some (1 : Nat) ∧
      (erase 0 (Example.key2 1 24) Example.abMap).1 = true ∧
      (test 0 (Example.key2 1 24) (erase 0 (Example.key2 1 24) Example.abMap).2).1 = false ∧
      (test 0 (Example.key2 1 25) (erase 0 (Example.key2 1 24) Example.abMap).2).1 =
        (test 0 (Example.key2 1 25) Example.abMap).1 :=
  ⟨Example.abMap_WF, rfl,
    (erase_stored 0 (Example.key2 1 24) 1 Example.abMap Example.abMap_WF rfl).1,
    (erase_stored 0 (Example.key2 1 24) 1 Example.abMap Example.abMap_WF rfl).2.1,
    ((erase_stored 0 (Example.key2 1 24) 1 Example.abMap Example.abMap_WF rfl).2.2
      (Example.key2 1 25) (by decide)).1⟩

/-- C8, counterexample: on the container without entries `erase(26, 17)` returns false
and leaves a new empty Map Node under the key 26. -/
theorem erase_absent_creates_node :
    node (Example.key2 26 17) Example.emptyMap = none ∧
      (erase 0 (Example.key2 26 17) Example.emptyMap).1 = false ∧
      (erase 0 (Example.key2 26 17) Example.emptyMap).2 ≠ Example.emptyMap ∧
      node (Example.key1 26) (erase 0 (Example.key2 26 17) Example.emptyMap).2 = some [] := by
  refine ⟨rfl, rfl, ?_, rfl⟩
  intro h
  exact List.cons_ne_nil _ _ (show ([(26, [])] : List (Nat × List (Nat × Nat))) = [] from h)

/-- C8, amended: when no value is stored at the full key `k`, `erase(k)` returns false
and every full key holds afterwards what it held before; the nested map structure is
identical to the one before if and only if the Map Node under the first `n-2` keys of
`k` was already there; after the call that Map Node is there. -/
theorem erase_absent_frame (dflt : V) {d : Nat} (k : Keys K (d + 1) 0)
    (multiKeyMap : MapOfMaps K V (d + 1)) (hwf : WF (d + 1) multiKeyMap)
    (hk : node k multiKeyMap = none) :
    (erase dflt k multiKeyMap).1 = false ∧
      (∀ k2 : Keys K (d + 1) 0,
        node k2 (erase dflt k multiKeyMap).2 = node k2 multiKeyMap) ∧
      ((erase dflt k multiKeyMap).2 = multiKeyMap ↔
        (node k.front multiKeyMap).isSome = true) ∧
      (node k.front (erase dflt k multiKeyMap).2).isSome = true := by
  have hf : StdMap.find k.back (reach dflt k.front multiKeyMap) = none := by
    rw [find_back_reach, hk]
  have hs : (erase dflt k multiKeyMap).2 =
      put dflt k.front (reach dflt k.front multiKeyMap) multiKeyMap := by
    rw [erase_eq]
    simp only
    rw [StdMap.erase_eq_self hf]
  refine ⟨?_, ?_, ?_, ?_⟩
  · rw [erase_eq, hk]
    rfl
  · intro k2
    rw [hs]
    exact node_touch dflt k.front k2 multiKeyMap
  · rw [hs]
    exact touch_eq_iff dflt k.front hwf
  · rw [hs, node_put_self]
    rfl

/-- Witness of C8, amended, on the container `abMap` and the absent key `(1, 17)`, whose
first key has a Map Node. -/
theorem erase_absent_frame_witness :
    WF 2 Example.abMap ∧ node (Example.key2 1 17) Example.abMap = none ∧
      (erase 0 (Example.key2 1 17) Example.abMap).1 = false ∧
      (erase 0 (Example.key2 1 17) Example.abMap).2 = Example.abMap :=
  ⟨Example.abMap_WF, rfl,
    (erase_absent_frame 0 (Example.key2 1 17) Example.abMap Example.abMap_WF rfl).1,
    (erase_absent_frame 0 (Example.key2 1 17) Example.abMap Example.abMap_WF rfl).2.2.1.2 rfl⟩

/-- C10: when a value `v` is stored at the full key `k`, `find(k)` returns an iterator
over a snapshot holding exactly the one value `v`, positioned at its start, dereferencing
it yields `v`, and `v` is still stored at `k` after the call. -/
theorem find_stored (dflt : V) (address : Nat) {d : Nat} (k : Keys K (d + 1) 0) (v : V)
    (multiKeyMap : MapOfMaps K V (d + 1)) (hk : node k multiKeyMap = some v) :
    (find dflt address k multiKeyMap).1.m_values.elems = [v] ∧
      (find dflt address k multiKeyMap).1.m_it =
        (find dflt address k multiKeyMap).1.m_values.begin ∧
      (find dflt address k multiKeyMap).1.deref = some v ∧
      node k (find dflt address k multiKeyMap).2 = some v := by
  rw [find_of_stored dflt address k v multiKeyMap hk]
  refine ⟨rfl, rfl, ?_, node_put_self dflt k v _⟩
  simp [Iterator.deref, ValueCt.storage]

/-- Witness of C10 on the container `abMap` and the key `(1, 25)`, which holds 2. -/
theorem find_stored_witness :
    node (Example.key2 1 25) Example.abMap = some (2 : Nat) ∧
      (find 0 100 (Example.key2 1 25) Example.abMap).1.m_values.elems = [2] ∧
      (find 0 100 (Example.key2 1 25) Example.abMap).1.deref = some 2 :=
  ⟨rfl, (find_stored (0 : Nat) 100 (Example.key2 1 25) (2 : Nat) Example.abMap (by rfl)).1,
    (find_stored (0 : Nat) 100 (Example.key2 1 25) (2 : Nat) Example.abMap (by rfl)).2.2.1⟩

/-- C9, the code at a failing input: on the container `abMap` no value is stored at
`(26, 17)`, yet the iterator that `find(26, 17)` returns does not compare equal to the
iterator that `end()` returns: each of the two wraps a snapshot vector of its own. -/
theorem find_absent_not_equal_end :
    node (Example.key2 26 17) Example.abMap = none ∧
      (find 0 100 (Example.key2 26 17) Example.abMap).1.m_it = ⟨some 100, 3⟩ ∧
      (end_ 0 101 (Keys.nil : Keys Nat 2 2)
        (find 0 100 (Example.key2 26 17) Example.abMap).2).1.m_it = ⟨some 101, 3⟩ ∧
      (find 0 100 (Example.key2 26 17) Example.abMap).1.eq
        (end_ 0 101 (Keys.nil : Keys Nat 2 2)
          (find 0 100 (Example.key2 26 17) Example.abMap).2).1 = false := by
  refine ⟨rfl, ?_, ?_, ?_⟩ <;> decide

/-- C1: for a prefix of length `0..n-2`, `values(prefix)` called with empty output vectors
fills as many values as key tuples, the key tuples are in strictly ascending lexicographic
order (so no key tuple occurs twice), and a key tuple is paired with a value exactly when it
is a full key beginning with the prefix at which that value is stored. -/
theorem values_exact_and_ordered (dflt : V) {d r : Nat} (subKeys : Keys K d (r + 1))
    (multiKeyMap : MapOfMaps K V d) (hwf : WF d multiKeyMap) :
    (values dflt [] [] subKeys multiKeyMap).1.1.length =
        (values dflt [] [] subKeys multiKeyMap).1.2.length ∧
      List.Pairwise (List.Lex (fun x y : K => x < y))
        (values dflt [] [] subKeys multiKeyMap).1.2 ∧
      List.Nodup (values dflt [] [] subKeys multiKeyMap).1.2 ∧
      ∀ (l : List K) (v : V),
        (l, v) ∈ List.zip (values dflt [] [] subKeys multiKeyMap).1.2
            (values dflt [] [] subKeys multiKeyMap).1.1 ↔
          ∃ suf : Keys K (r + 1) 0,
            l = (subKeys.append suf).toList ∧ node (subKeys.append suf) multiKeyMap = some v := by
  have hsorted : List.Pairwise (List.Lex (fun x y : K => x < y))
      (List.map (fun e : List K × V => subKeys.toList ++ e.1)
        (entries (r + 1) (reach dflt subKeys multiKeyMap))) := by
    rw [List.pairwise_map]
    exact (entries_sorted (r + 1) _ (WF_reach dflt subKeys hwf)).imp
      (fun h => List.Lex.append_left _ h _)
  rw [values_fst]
  refine ⟨by simp, hsorted, ?_, ?_⟩
  · exact hsorted.imp (fun h => List.Lex.to_ne (List.Lex.imp (fun _ _ => ne_of_lt) _ _ h))
  · intro l v
    rw [List.zip_map', List.mem_map]
    constructor
    · rintro ⟨⟨l2, v2⟩, he, heq⟩
      simp only [Prod.mk.injEq] at heq
      obtain ⟨rfl, rfl⟩ := heq
      obtain ⟨suf, rfl, hn⟩ :=
        (entries_mem (r + 1) _ (WF_reach dflt subKeys hwf) l2 v2).1 he
      refine ⟨suf, (Keys.toList_append subKeys suf).symm, ?_⟩
      rw [node_append]
      rw [reach_eq_node] at hn
      cases hp : node subKeys multiKeyMap with
      | none =>
        rw [hp] at hn
        exact absurd ((node_init dflt suf).symm.trans hn) (by simp)
      | some c =>
        rw [hp] at hn
        exact hn
    · rintro ⟨suf, rfl, hn⟩
      refine ⟨(suf.toList, v), ?_, by simp [Keys.toList_append]⟩
      apply (entries_mem (r + 1) _ (WF_reach dflt subKeys hwf) suf.toList v).2
      refine ⟨suf, rfl, ?_⟩
      rw [node_append] at hn
      rw [reach_eq_node]
      cases hp : node subKeys multiKeyMap with
      | none => rw [hp] at hn; cases hn
      | some c =>
        rw [hp] at hn
        exact hn

/-- Witness of C1 on the container `abMap` and the prefix `(1)`: two values, and the
full key `(1, 25)` is paired with its value 2. -/
theorem values_exact_and_ordered_witness :
    WF 2 Example.abMap ∧
      (values 0 [] [] (Example.key1 1) Example.abMap).1.1.length =
        (values 0 [] [] (Example.key1 1) Example.abMap).1.2.length ∧
      ([1, 25], 2) ∈ List.zip (values 0 [] [] (Example.key1 1) Example.abMap).1.2
        (values 0 [] [] (Example.key1 1) Example.abMap).1.1 :=
  ⟨Example.abMap_WF,
    (values_exact_and_ordered (0 : Nat) (Example.key1 1) Example.abMap Example.abMap_WF).1,
    ((values_exact_and_ordered (0 : Nat) (Example.key1 1) Example.abMap
      Example.abMap_WF).2.2.2 [1, 25] 2).2
      ⟨Keys.cons 25 Keys.nil, by rfl, by rfl⟩⟩

/-- C6, counterexample: on the container `abMap`, `values(1)` returns the values `[1, 2]`
with the key tuples `[(1, 24), (1, 25)]`: full keys of length 2 that start with the
prefix key, not the suffix keys `[(24), (25)]` of length 1. -/
theorem values_keys_hold_prefix :
    (values 0 [] [] (Example.key1 1) Example.abMap).1 = ([1, 2], [[1, 24], [1, 25]]) ∧
      (values 0 [] [] (Example.key1 1) Example.abMap).1.2 ≠ [[24], [25]] ∧
      ¬ ∀ l ∈ (values 0 [] [] (Example.key1 1) Example.abMap).1.2, l.length = 1 := by
  refine ⟨by decide, by decide, by decide⟩

/-- C6, amended: for a prefix of length `p` in `0..n-2`, each key tuple that
`values(prefix)` appends to the keys output has length `n-1` and is a full key: the keys
of the prefix followed by `n-1-p` keys below the prefix. -/
theorem values_keys_are_full_keys (dflt : V) {d r : Nat} (subKeys : Keys K d (r + 1))
    (multiKeyMap : MapOfMaps K V d) :
    ∀ l ∈ (values dflt [] [] subKeys multiKeyMap).1.2,
      l.length = d ∧ ∃ suf : List K, suf.length = r + 1 ∧ l = subKeys.toList ++ suf := by
  intro l hl
  rw [values_fst] at hl
  simp only [List.mem_map] at hl
  obtain ⟨e, he, rfl⟩ := hl
  have h1 := entries_length (r + 1) _ e he
  have h2 := Keys.length_toList subKeys
  refine ⟨?_, e.1, h1, rfl⟩
  rw [List.length_append, h1]
  omega

/-- Witness of C6, amended, on the container `abMap` and the prefix `(1)`. -/
theorem values_keys_are_full_keys_witness :
    [1, 25] ∈ (values 0 [] [] (Example.key1 1) Example.abMap).1.2 ∧
      [1, 25].length = 2 ∧ ∃ suf : List Nat, suf.length = 0 + 1 ∧ [1, 25] = [1] ++ suf :=
  ⟨by decide,
    values_keys_are_full_keys (0 : Nat) (Example.key1 1) Example.abMap [1, 25] (by decide)⟩

/-- C11: calling `values(prefix)` twice in a row, each time with empty output vectors,
yields the same value sequence and the same key sequence, whether or not the first call
created intermediate nodes. -/
theorem values_twice (dflt : V) {d r : Nat} (subKeys : Keys K d (r + 1))
    (multiKeyMap : MapOfMaps K V d) :
    (values dflt [] [] subKeys (values dflt [] [] subKeys multiKeyMap).2).1 =
      (values dflt [] [] subKeys multiKeyMap).1 := by
  rw [values_fst, values_fst, values_snd, reach_eq_node, node_put_self]
  rfl

/-- C18: `values` appends. With any previous contents of the two output vectors and a
prefix of length `0..n-2`, the previous contents are still the start of the two vectors
after the call; what follows them is one key tuple and one value per leaf under the prefix:
as many values as key tuples, the key tuples in strictly ascending order, a key tuple paired
with a value exactly when it is a full key beginning with the prefix at which that value
is stored, and both vectors have grown by the number of full keys stored under the
prefix. -/
theorem values_appends (dflt : V) {d r : Nat} (vs : List V) (ks : List (List K))
    (subKeys : Keys K d (r + 1)) (multiKeyMap : MapOfMaps K V d) (hwf : WF d multiKeyMap) :
    List.take vs.length (values dflt vs ks subKeys multiKeyMap).1.1 = vs ∧
      List.take ks.length (values dflt vs ks subKeys multiKeyMap).1.2 = ks ∧
      (List.drop vs.length (values dflt vs ks subKeys multiKeyMap).1.1).length =
        (List.drop ks.length (values dflt vs ks subKeys multiKeyMap).1.2).length ∧
      List.Pairwise (List.Lex (fun x y : K => x < y))
        (List.drop ks.length (values dflt vs ks subKeys multiKeyMap).1.2) ∧
      (∀ (l : List K) (v : V),
        (l, v) ∈ List.zip (List.drop ks.length (values dflt vs ks subKeys multiKeyMap).1.2)
            (List.drop vs.length (values dflt vs ks subKeys multiKeyMap).1.1) ↔
          ∃ suf : Keys K (r + 1) 0,
            l = (subKeys.append suf).toList ∧
              node (subKeys.append suf) multiKeyMap = some v) ∧
      ∀ full : List (Keys K d 0), full.Nodup →
        (∀ k : Keys K d 0, k ∈ full ↔
          ∃ suf : Keys K (r + 1) 0,
            k = subKeys.append suf ∧ (node k multiKeyMap).isSome = true) →
        (values dflt vs ks subKeys multiKeyMap).1.1.length = vs.length + full.length ∧
          (values dflt vs ks subKeys multiKeyMap).1.2.length = ks.length + full.length := by
  obtain ⟨hsorted, hmem⟩ := collected_spec dflt subKeys multiKeyMap hwf
  rw [values_eq, subTreeValues_eq]
  simp only [List.take_left', List.drop_left', List.length_map, List.length_append]
  refine ⟨trivial, trivial, trivial, hsorted, hmem, ?_⟩
  intro full hnd hfull
  rw [collected_count dflt subKeys multiKeyMap hwf full hnd hfull]
  exact ⟨rfl, rfl⟩

/-- Witness of C18 on the container `abMap` and the prefix `(1)`, with one value and one
key tuple already in the output vectors: they stay in front, and two elements follow. -/
theorem values_appends_witness :
    WF 2 Example.abMap ∧
      List.take 1 (values 0 [9] [[9, 9]] (Example.key1 1) Example.abMap).1.1 = [9] ∧
      List.take 1 (values 0 [9] [[9, 9]] (Example.key1 1) Example.abMap).1.2 = [[9, 9]] ∧
      (values 0 [9] [[9, 9]] (Example.key1 1) Example.abMap).1.1.length = 1 + 2 ∧
      (values 0 [9] [[9, 9]] (Example.key1 1) Example.abMap).1.2.length = 1 + 2 :=
  ⟨Example.abMap_WF,
    (values_appends (0 : Nat) [9] [[9, 9]] (Example.key1 1) Example.abMap
      Example.abMap_WF).1,
    (values_appends (0 : Nat) [9] [[9, 9]] (Example.key1 1) Example.abMap
      Example.abMap_WF).2.1,
    ((values_appends (0 : Nat) [9] [[9, 9]] (Example.key1 1) Example.abMap
      Example.abMap_WF).2.2.2.2.2 [Example.key2 1 24, Example.key2 1 25] (by decide)
      Example.abMap_full_under_one).1,
    ((values_appends (0 : Nat) [9] [[9, 9]] (Example.key1 1) Example.abMap
      Example.abMap_WF).2.2.2.2.2 [Example.key2 1 24, Example.key2 1 25] (by decide)
      Example.abMap_full_under_one).2⟩

/-- C14: after `erase(k)` has been called for the full keys of a list that holds every
full key stored under the prefix, `values(prefix)` returns an empty values sequence and an
empty keys sequence, and every Map Node that was there before the erasures is still
there. -/
theorem values_empty_after_erasing_all (dflt : V) {d r : Nat}
    (subKeys : Keys K (d + 1) (r + 1)) (multiKeyMap : MapOfMaps K V (d + 1))
    (hwf : WF (d + 1) multiKeyMap) (erased : List (Keys K (d + 1) 0))
    (hall : ∀ suf : Keys K (r + 1) 0,
      (node (subKeys.append suf) multiKeyMap).isSome = true → subKeys.append suf ∈ erased) :
    (values dflt [] [] subKeys
        (List.foldl (fun m k => (erase dflt k m).2) multiKeyMap erased)).1 = ([], []) ∧
      ∀ {r2 : Nat} (q : Keys K (d + 1) (r2 + 1)), (node q multiKeyMap).isSome = true →
        (node q (List.foldl (fun m k => (erase dflt k m).2) multiKeyMap erased)).isSome =
          true := by
  obtain ⟨h1, h2, h3⟩ := eraseAll_spec dflt erased multiKeyMap hwf
  refine ⟨?_, fun q hq => h3 q hq⟩
  have hnil : entries (r + 1)
      (reach dflt subKeys (List.foldl (fun m k => (erase dflt k m).2) multiKeyMap erased)) =
      [] := by
    rw [List.eq_nil_iff_forall_not_mem]
    rintro ⟨l, v⟩ hmem
    obtain ⟨suf, _, hn⟩ := (entries_mem (r + 1) _ (WF_reach dflt subKeys h1) l v).1 hmem
    have hn2 : node (subKeys.append suf)
        (List.foldl (fun m k => (erase dflt k m).2) multiKeyMap erased) = some v := by
      rw [node_append]
      rw [reach_eq_node] at hn
      cases hp : node subKeys
          (List.foldl (fun m k => (erase dflt k m).2) multiKeyMap erased) with
      | none =>
        rw [hp] at hn
        exact absurd ((node_init dflt suf).symm.trans hn) (by simp)
      | some c =>
        rw [hp] at hn
        exact hn
    rw [h2] at hn2
    by_cases hm : subKeys.append suf ∈ erased
    · rw [if_pos hm] at hn2
      cases hn2
    · rw [if_neg hm] at hn2
      exact hm (hall suf (by rw [hn2]; rfl))
  rw [values_fst, hnil]
  rfl

/-- Witness of C14 on the container `abMap` and the prefix `(1)`: after `erase(1, 24)` and
`erase(1, 25)`, `values(1)` returns nothing and the Map Node under the key 1 is still
there. -/
theorem values_empty_after_erasing_all_witness :
    WF 2 Example.abMap ∧
      (values 0 [] [] (Example.key1 1)
          (List.foldl (fun m k => (erase 0 k m).2) Example.abMap
            [Example.key2 1 24, Example.key2 1 25])).1 = ([], []) ∧
      (node (Example.key1 1)
          (List.foldl (fun m k => (erase 0 k m).2) Example.abMap
            [Example.key2 1 24, Example.key2 1 25])).isSome = true :=
  ⟨Example.abMap_WF,
    (values_empty_after_erasing_all (0 : Nat) (Example.key1 1) Example.abMap
      Example.abMap_WF [Example.key2 1 24, Example.key2 1 25] Example.abMap_under_one).1,
    (values_empty_after_erasing_all (0 : Nat) (Example.key1 1) Example.abMap
      Example.abMap_WF [Example.key2 1 24, Example.key2 1 25] Example.abMap_under_one).2
      (Example.key1 1) (by rfl)⟩

/-- C15: `erase(k)` never prunes. Every other full key holds afterwards what it held
before, every Map Node that was there before the call is there after it, the Map Node under
the first `n-2` keys of `k` is afterwards what it was with at most the entry of the last key
of `k` removed, and every Map Node that is not on the way to that one is unchanged. -/
theorem erase_never_prunes (dflt : V) {d : Nat} (k : Keys K (d + 1) 0)
    (multiKeyMap : MapOfMaps K V (d + 1)) (hwf : WF (d + 1) multiKeyMap) :
    (∀ k2 : Keys K (d + 1) 0, k2 ≠ k →
        node k2 (erase dflt k multiKeyMap).2 = node k2 multiKeyMap) ∧
      (∀ {r : Nat} (q : Keys K (d + 1) (r + 1)), (node q multiKeyMap).isSome = true →
        (node q (erase dflt k multiKeyMap).2).isSome = true) ∧
      (∀ c : List (K × V), node k.front multiKeyMap = some c →
        node k.front (erase dflt k multiKeyMap).2 = some (StdMap.erase k.back c)) ∧
      ∀ {r : Nat} (q : Keys K (d + 1) (r + 1)), (∀ suf, k.front ≠ q.append suf) →
        node q (erase dflt k multiKeyMap).2 = node q multiKeyMap := by
  refine ⟨?_, ?_, ?_, ?_⟩
  · intro k2 hne
    rw [node_erase dflt k hwf k2, if_neg hne]
  · intro r q hq
    rw [erase_eq]
    exact node_isSome_put dflt k.front q (Nat.succ_le_succ (Nat.zero_le _)) _ multiKeyMap hq
  · intro c hc
    rw [erase_eq]
    simp only
    rw [node_put_self, reach_eq_node, hc]
    rfl
  · intro r q hq
    rw [erase_eq]
    refine node_put_of_diverge dflt k.front q ?_ hq _ multiKeyMap
    intro suf hs
    have hr : r = 0 := by
      have := Keys.le_of_keys suf
      omega
    subst hr
    rw [Keys.eq_nil_of_same suf, Keys.append_nil] at hs
    exact hq Keys.nil (by rw [hs, Keys.append_nil])

/-- Witness of C15 on the container `abMap`: after `erase(1, 24)` the Map Node under the
key 1 is still there and holds the entry of 25 alone. -/
theorem erase_never_prunes_witness :
    WF 2 Example.abMap ∧
      node (Example.key1 1) (erase 0 (Example.key2 1 24) Example.abMap).2 =
        some ([(25, 2)] : List (Nat × Nat)) :=
  ⟨Example.abMap_WF,
    (erase_never_prunes (0 : Nat) (Example.key2 1 24) Example.abMap Example.abMap_WF).2.2.1
      ([(24, 1), (25, 2)] : List (Nat × Nat)) (by rfl)⟩

/-- C17: `test(k)` and `find(k)` never change what `values()` with the empty prefix
returns, and when no value is stored at `k` the failing `at(k)` and `erase(k)`, which
returns false, do not change it either; this holds also when the call creates
intermediate Map Nodes. -/
theorem checked_operations_keep_values (dflt : V) (address : Nat) {d : Nat}
    (k : Keys K (d + 1) 0) (multiKeyMap : MapOfMaps K V (d + 1))
    (hwf : WF (d + 1) multiKeyMap) :
    (values dflt [] [] (Keys.nil : Keys K (d + 1) (d + 1)) (test dflt k multiKeyMap).2).1 =
        (values dflt [] [] (Keys.nil : Keys K (d + 1) (d + 1)) multiKeyMap).1 ∧
      (values dflt [] [] (Keys.nil : Keys K (d + 1) (d + 1))
          (find dflt address k multiKeyMap).2).1 =
        (values dflt [] [] (Keys.nil : Keys K (d + 1) (d + 1)) multiKeyMap).1 ∧
      (node k multiKeyMap = none →
        (at_ dflt k multiKeyMap).1 = Except.error Error.KeyNotFound ∧
          (values dflt [] [] (Keys.nil : Keys K (d + 1) (d + 1))
              (at_ dflt k multiKeyMap).2).1 =
            (values dflt [] [] (Keys.nil : Keys K (d + 1) (d + 1)) multiKeyMap).1 ∧
          (erase dflt k multiKeyMap).1 = false ∧
          (values dflt [] [] (Keys.nil : Keys K (d + 1) (d + 1))
              (erase dflt k multiKeyMap).2).1 =
            (values dflt [] [] (Keys.nil : Keys K (d + 1) (d + 1)) multiKeyMap).1) := by
  refine ⟨?_, ?_, ?_⟩
  · refine values_nil_eq_of_node_eq dflt _ _ (WF_test dflt k hwf) hwf ?_
    intro k2
    rw [test_snd]
    exact node_touch dflt k.front k2 multiKeyMap
  · exact values_nil_eq_of_node_eq dflt _ _ (WF_find_snd dflt address k hwf) hwf
      (node_find_snd dflt address k multiKeyMap)
  · intro hk
    refine ⟨?_, ?_, ?_, ?_⟩
    · rw [at_fst, hk]
    · refine values_nil_eq_of_node_eq dflt _ _ (WF_at dflt k hwf) hwf ?_
      intro k2
      rw [at_snd]
      exact node_touch dflt k.front k2 multiKeyMap
    · rw [erase_eq, hk]
      rfl
    · refine values_nil_eq_of_node_eq dflt _ _ (WF_erase dflt k hwf) hwf ?_
      intro k2
      rw [node_erase dflt k hwf k2]
      by_cases h2 : k2 = k
      · rw [if_pos h2, h2, hk]
      · rw [if_neg h2]

/-- Witness of C17 on the container `abMap` and the absent key `(26, 17)`: `test`
creates a Map Node under 26 and `values()` returns the same three values. -/
theorem checked_operations_keep_values_witness :
    WF 2 Example.abMap ∧
      (test 0 (Example.key2 26 17) Example.abMap).2 ≠ Example.abMap ∧
      (values 0 [] [] (Keys.nil : Keys Nat 2 2)
          (test 0 (Example.key2 26 17) Example.abMap).2).1 =
        (values 0 [] [] (Keys.nil : Keys Nat 2 2) Example.abMap).1 ∧
      (values 0 [] [] (Keys.nil : Keys Nat 2 2) Example.abMap).1 =
        ([1, 2, 3], [[1, 24], [1, 25], [2, 24]]) :=
  ⟨Example.abMap_WF,
    fun h => absurd (congrArg (fun m => (node (Example.key1 26) m).isSome) h) (by decide),
    (checked_operations_keep_values (0 : Nat) 100 (Example.key2 26 17) Example.abMap
      Example.abMap_WF).1,
    by decide⟩

/-- C16, the code at a failing input: on the container `abMap`, `begin(1)` wraps the
snapshot `[1, 2]` and `end(1)` wraps a snapshot of its own, so after the two values have
been read the iterator still does not compare equal to the end iterator, the next
dereference is at no element, and the loop never returns the values sequence. -/
theorem begin_end_loop_runs_off_snapshot :
    (values 0 [] [] (Example.key1 1) Example.abMap).1.1 = [1, 2] ∧
      (begin 0 100 (Example.key1 1) Example.abMap).1.m_it = ⟨some 100, 0⟩ ∧
      (end_ 0 101 (Example.key1 1) (begin 0 100 (Example.key1 1) Example.abMap).2).1.m_it =
        ⟨some 101, 2⟩ ∧
      (begin 0 100 (Example.key1 1) Example.abMap).1.incr.incr.ne
        (end_ 0 101 (Example.key1 1) (begin 0 100 (Example.key1 1) Example.abMap).2).1 =
          true ∧
      (begin 0 100 (Example.key1 1) Example.abMap).1.incr.incr.deref = none ∧
      ∀ fuel : Nat,
        iterLoop (end_ 0 101 (Example.key1 1)
            (begin 0 100 (Example.key1 1) Example.abMap).2).1 fuel
          (begin 0 100 (Example.key1 1) Example.abMap).1 = none := by
  refine ⟨by decide, by decide, by decide, by decide, by decide, ?_⟩
  intro fuel
  rcases fuel with _ | _ | _ | n <;> rfl

end Claims

/-! ## Facts about `ChainIterator` -/

namespace ChainIterator

theorem forEach_increment_before (s mx : Nat) :
    ∀ (l : List (Nat × Nat)) (c : Nat) (flag : Bool), c + l.length ≤ s →
      forEach (incrementStep s mx) (c, flag) l = ((c + l.length, flag), l) := by
  intro l
  induction l with
  | nil => intro c flag _; rfl
  | cons x xs ih =>
    intro c flag h
    simp only [List.length_cons] at h
    have hc : c ≠ s := by omega
    simp only [forEach, incrementStep, hc, ne_eq, not_false_eq_true, if_true]
    rw [ih (c + 1) flag (by omega)]
    simp only [List.length_cons, Prod.mk.injEq, and_true]
    omega

theorem forEach_increment_after (s mx : Nat) :
    ∀ (l : List (Nat × Nat)) (c : Nat) (flag : Bool), s < c →
      forEach (incrementStep s mx) (c, flag) l = ((c + l.length, flag), l) := by
  intro l
  induction l with
  | nil => intro c flag _; rfl
  | cons x xs ih =>
    intro c flag h
    have hc : c ≠ s := by omega
    simp only [forEach, incrementStep, hc, ne_eq, not_false_eq_true, if_true]
    rw [ih (c + 1) flag (by omega)]
    simp only [List.length_cons, Prod.mk.injEq, and_true]
    omega

theorem forEach_increment_at (s mx b e : Nat) (post : List (Nat × Nat)) :
    ∀ (pre : List (Nat × Nat)) (c : Nat) (flag : Bool), c + pre.length = s →
      forEach (incrementStep s mx) (c, flag) (pre ++ (b, e) :: post) =
        ((s + 1 + post.length, flag || (decide (b + 1 = e) && !decide (s = mx))),
          pre ++ (b + 1, e) :: post) := by
  intro pre
  induction pre with
  | nil =>
    intro c flag h
    simp only [List.length_nil, Nat.add_zero] at h
    subst h
    simp only [List.nil_append, forEach, incrementStep, ne_eq, not_true_eq_false, if_false]
    by_cases h1 : b + 1 = e
    · by_cases h2 : c = mx
      · simp [h1, h2, forEach_increment_after]
      · simp [h1, h2, forEach_increment_after]
    · simp [h1, forEach_increment_after]
  | cons x xs ih =>
    intro c flag h
    simp only [List.length_cons] at h
    have hc : c ≠ s := by omega
    rw [List.cons_append]
    simp only [forEach, incrementStep, hc, ne_eq, not_false_eq_true, if_true]
    rw [ih (c + 1) flag (by omega)]
    rfl

theorem increment_at (pre post : List (Nat × Nat)) (b e mx : Nat) :
    increment ⟨pre ++ (b, e) :: post, pre.length, mx⟩ =
      ⟨pre ++ (b + 1, e) :: post,
        if b + 1 = e ∧ pre.length ≠ mx then pre.length + 1 else pre.length, mx⟩ := by
  simp only [increment]
  rw [forEach_increment_at pre.length mx b e post pre 0 false (by simp)]
  by_cases h1 : b + 1 = e <;> by_cases h2 : pre.length = mx <;> simp [h1, h2]

theorem callStep_after {σ : Type} (self : ChainIterator) (callable : Nat → Nat → Nat → σ → σ) :
    ∀ (l rem : List (Nat × Nat)) (c : σ), rem.length = l.length →
      self.m_section + l.length < self.m_iteratorsTpl.length →
      (List.foldl (callStep self callable) (rem, c) l).2 = c := by
  intro l
  induction l with
  | nil => intro rem c _ _; rfl
  | cons x xs ih =>
    intro rem c hlen h
    simp only [List.length_cons] at hlen h
    have hne : ¬ self.m_section = self.m_iteratorsTpl.length - rem.length := by omega
    simp only [List.foldl_cons, callStep, hne, decide_False, Bool.false_eq_true, if_false]
    exact ih _ c (by simp [hlen]) (by omega)

theorem callStep_at {σ : Type} (self : ChainIterator) (callable : Nat → Nat → Nat → σ → σ)
    (x : Nat × Nat) (post : List (Nat × Nat)) (c : σ)
    (hN : self.m_iteratorsTpl.length = self.m_section + 1 + post.length) :
    ∀ (pre : List (Nat × Nat)), pre.length ≤ self.m_section →
      (List.foldl (callStep self callable) (pre ++ x :: post, c) (pre ++ x :: post)).2 =
        callable self.m_section x.1 x.2 c := by
  intro pre
  induction pre with
  | nil =>
    intro _
    have he : self.m_section = self.m_iteratorsTpl.length - (x :: post).length := by
      simp only [List.length_cons]; omega
    simp only [List.nil_append, List.foldl_cons, callStep, ← he, decide_True, if_true]
    exact callStep_after self callable post _ _ (by simp) (by omega)
  | cons p ps ih =>
    intro h
    simp only [List.length_cons] at h
    have hne : ¬ self.m_section =
        self.m_iteratorsTpl.length - (p :: ps ++ x :: post).length := by
      simp only [List.length_cons, List.length_append, List.cons_append]; omega
    simp only [List.cons_append, List.foldl_cons, callStep] at hne ⊢
    simp only [hne, decide_False, Bool.false_eq_true, if_false, List.drop_one, List.tail_cons]
    exact ih (by omega)

theorem callOnCurrentIterator_at {σ : Type} (pre post : List (Nat × Nat)) (x : Nat × Nat)
    (mx : Nat) (callable : Nat → Nat → Nat → σ → σ) (c : σ) :
    callOnCurrentIterator ⟨pre ++ x :: post, pre.length, mx⟩ callable c =
      callable pre.length x.1 x.2 c := by
  simp only [callOnCurrentIterator]
  exact callStep_at ⟨pre ++ x :: post, pre.length, mx⟩ callable x post c
    (by simp; omega) pre (le_refl _)

theorem equal_at (pre post : List (Nat × Nat)) (b e mx : Nat) (last : ChainIterator) :
    equal ⟨pre ++ (b, e) :: post, pre.length, mx⟩ last =
      if last.m_section = pre.length then
        match last.m_iteratorsTpl[pre.length]? with
        | some otherIterators => decide (b = otherIterators.1) && decide (e = otherIterators.1)
        | none => false
      else false := by
  simp only [equal, callOnCurrentIterator_at]

theorem dereference_at {V : Type} (ranges : List (List V)) (pre post : List (Nat × Nat))
    (b e mx : Nat) :
    dereference ranges ⟨pre ++ (b, e) :: post, pre.length, mx⟩ =
      (ranges[pre.length]?).bind (fun range => range[b]?) := by
  simp only [dereference, callOnCurrentIterator_at]

theorem getElem?_middle {α : Type} (a : List α) (x : α) (b : List α) :
    (a ++ x :: b)[a.length]? = some x := by
  rw [List.getElem?_append_right (le_refl _)]
  simp

theorem forLoop_from {V : Type} (ranges : List (List V)) (last : ChainIterator) (LL : Nat)
    (lastRange : List V) (hlast : ranges.getLast? = some lastRange)
    (hLL : lastRange.length = LL)
    (hsec : last.m_section = ranges.length - 1)
    (hcur : last.m_iteratorsTpl[ranges.length - 1]? = some (LL, LL)) :
    ∀ (Rpost Rpre : List (List V)) (cur : List V) (pre : List (Nat × Nat)),
      (∀ r ∈ Rpost, r ≠ []) → ranges = Rpre ++ cur :: Rpost → pre.length = Rpre.length →
      ∀ (k b : Nat), b + k + 1 = cur.length →
      ∀ fuel : Nat, k + 1 + Rpost.flatten.length < fuel →
      forLoop ranges last fuel
          ⟨pre ++ (b, cur.length) :: toIterators Rpost, pre.length, ranges.length - 1⟩ =
        some (cur.drop b ++ Rpost.flatten, k + 1 + Rpost.flatten.length) := by
  intro Rpost
  induction Rpost with
  | nil =>
    intro Rpre cur pre _ hr hpre k
    have hmx : ranges.length - 1 = pre.length := by
      rw [hr, hpre]; simp
    have hLL : cur.length = LL := by
      rw [hr] at hlast
      simp at hlast
      rw [hlast, hLL]
    induction k with
    | zero =>
      intro b hb fuel hfuel
      obtain ⟨f, rfl⟩ := Nat.exists_eq_succ_of_ne_zero (Nat.ne_of_gt (Nat.lt_of_le_of_lt (Nat.zero_le _) hfuel))
      have hblt : b < cur.length := by omega
      have heq : equal ⟨pre ++ (b, cur.length) :: toIterators ([] : List (List V)), pre.length,
          ranges.length - 1⟩ last = false := by
        rw [equal_at, ← hmx, hcur]
        have : b ≠ LL := by omega
        simp [this]
      have hde : dereference ranges ⟨pre ++ (b, cur.length) :: toIterators ([] : List (List V)), pre.length,
          ranges.length - 1⟩ = some cur[b] := by
        rw [dereference_at, hr, hpre, getElem?_middle]
        simp [List.getElem?_eq_getElem hblt]
      have hinc : increment ⟨pre ++ (b, cur.length) :: toIterators ([] : List (List V)), pre.length,
          ranges.length - 1⟩ =
          ⟨pre ++ (b + 1, cur.length) :: toIterators ([] : List (List V)), pre.length, ranges.length - 1⟩ := by
        rw [increment_at]
        simp [hmx]
      have heq2 : equal ⟨pre ++ (b + 1, cur.length) :: toIterators ([] : List (List V)), pre.length,
          ranges.length - 1⟩ last = true := by
        rw [equal_at, ← hmx, hcur]
        have : b + 1 = LL := by omega
        simp [this, hsec, hLL]
      simp only [List.flatten_nil, List.length_nil, Nat.add_zero] at hfuel ⊢
      obtain ⟨f2, rfl⟩ := Nat.exists_eq_succ_of_ne_zero (show f ≠ 0 by omega)
      simp only [forLoop, heq, hde, hinc, heq2, Bool.false_eq_true, if_false, if_true,
        Option.map_some', List.append_nil]
      rw [List.drop_eq_getElem_cons hblt, List.drop_eq_nil_of_le (by omega)]
    | succ k ih =>
      intro b hb fuel hfuel
      obtain ⟨f, rfl⟩ := Nat.exists_eq_succ_of_ne_zero (Nat.ne_of_gt (Nat.lt_of_le_of_lt (Nat.zero_le _) hfuel))
      have hblt : b < cur.length := by omega
      have heq : equal ⟨pre ++ (b, cur.length) :: toIterators ([] : List (List V)), pre.length,
          ranges.length - 1⟩ last = false := by
        rw [equal_at, ← hmx, hcur]
        have : b ≠ LL := by omega
        simp [this]
      have hde : dereference ranges ⟨pre ++ (b, cur.length) :: toIterators ([] : List (List V)), pre.length,
          ranges.length - 1⟩ = some cur[b] := by
        rw [dereference_at, hr, hpre, getElem?_middle]
        simp [List.getElem?_eq_getElem hblt]
      have hinc : increment ⟨pre ++ (b, cur.length) :: toIterators ([] : List (List V)), pre.length,
          ranges.length - 1⟩ =
          ⟨pre ++ (b + 1, cur.length) :: toIterators ([] : List (List V)), pre.length, ranges.length - 1⟩ := by
        rw [increment_at]
        simp [hmx]
      simp only [forLoop, heq, hde, hinc, Bool.false_eq_true, if_false]
      rw [ih (b + 1) (by omega) f (by omega)]
      simp only [Option.map_some', List.flatten_nil, List.append_nil, List.length_nil,
        Nat.add_zero]
      rw [List.drop_eq_getElem_cons hblt]
  | cons nxt Rpost ihR =>
    intro Rpre cur pre hne hr hpre k
    have hmx : ranges.length - 1 ≠ pre.length := by
      rw [hr, hpre]; simp
    have hnxt : nxt ≠ [] := hne nxt (List.mem_cons_self _ _)
    have hnxtlen : 0 < nxt.length := List.length_pos.2 hnxt
    induction k with
    | zero =>
      intro b hb fuel hfuel
      obtain ⟨f, rfl⟩ := Nat.exists_eq_succ_of_ne_zero (Nat.ne_of_gt (Nat.lt_of_le_of_lt (Nat.zero_le _) hfuel))
      have hblt : b < cur.length := by omega
      have heq : equal ⟨pre ++ (b, cur.length) :: toIterators (nxt :: Rpost), pre.length,
          ranges.length - 1⟩ last = false := by
        rw [equal_at, hsec]
        simp [hmx]
      have hde : dereference ranges ⟨pre ++ (b, cur.length) :: toIterators (nxt :: Rpost),
          pre.length, ranges.length - 1⟩ = some cur[b] := by
        rw [dereference_at, hr, hpre, getElem?_middle]
        simp [List.getElem?_eq_getElem hblt]
      have hinc : increment ⟨pre ++ (b, cur.length) :: toIterators (nxt :: Rpost), pre.length,
          ranges.length - 1⟩ =
          ⟨(pre ++ [(cur.length, cur.length)]) ++ (0, nxt.length) :: toIterators Rpost,
            (pre ++ [(cur.length, cur.length)]).length, ranges.length - 1⟩ := by
        rw [increment_at]
        have h1 : b + 1 = cur.length := by omega
        simp [h1, Ne.symm hmx, toIterators]
      simp only [forLoop, heq, hde, hinc, Bool.false_eq_true, if_false]
      rw [ihR (Rpre ++ [cur]) nxt (pre ++ [(cur.length, cur.length)])
        (fun r hrm => hne r (List.mem_cons_of_mem _ hrm)) (by rw [hr]; simp)
        (by simp [hpre]) (nxt.length - 1) 0 (by omega) f
        (by simp only [List.flatten_cons, List.length_append] at hfuel; omega)]
      have hdrop : List.drop b cur = [cur[b]] := by
        rw [List.drop_eq_getElem_cons hblt, List.drop_eq_nil_of_le (by omega)]
      simp only [Option.map_some', List.drop_zero, List.flatten_cons, List.length_append,
        Option.some.injEq, Prod.mk.injEq, hdrop]
      refine ⟨by simp, by omega⟩
    | succ k ih =>
      intro b hb fuel hfuel
      obtain ⟨f, rfl⟩ := Nat.exists_eq_succ_of_ne_zero (Nat.ne_of_gt (Nat.lt_of_le_of_lt (Nat.zero_le _) hfuel))
      have hblt : b < cur.length := by omega
      have heq : equal ⟨pre ++ (b, cur.length) :: toIterators (nxt :: Rpost), pre.length,
          ranges.length - 1⟩ last = false := by
        rw [equal_at, hsec]
        simp [hmx]
      have hde : dereference ranges ⟨pre ++ (b, cur.length) :: toIterators (nxt :: Rpost),
          pre.length, ranges.length - 1⟩ = some cur[b] := by
        rw [dereference_at, hr, hpre, getElem?_middle]
        simp [List.getElem?_eq_getElem hblt]
      have hinc : increment ⟨pre ++ (b, cur.length) :: toIterators (nxt :: Rpost), pre.length,
          ranges.length - 1⟩ =
          ⟨pre ++ (b + 1, cur.length) :: toIterators (nxt :: Rpost), pre.length,
            ranges.length - 1⟩ := by
        rw [increment_at]
        have h1 : b + 1 ≠ cur.length := by omega
        simp [h1]
      simp only [forLoop, heq, hde, hinc, Bool.false_eq_true, if_false]
      rw [ih (b + 1) (by omega) f (by omega)]
      have hdrop := List.drop_eq_getElem_cons hblt
      simp only [Option.map_some', Option.some.injEq, Prod.mk.injEq, hdrop]
      refine ⟨rfl, by omega⟩

theorem forEach_end_at (s b e : Nat) :
    ∀ (pre : List (Nat × Nat)) (c : Nat), c + pre.length = s →
      (forEach (endStep s) c (pre ++ [(b, e)])).2 = pre ++ [(e, e)] := by
  intro pre
  induction pre with
  | nil =>
    intro c h
    simp only [List.length_nil, Nat.add_zero] at h
    subst h
    simp [forEach, endStep]
  | cons x xs ih =>
    intro c h
    simp only [List.length_cons] at h
    have hc : c ≠ s := by omega
    rw [List.cons_append]
    simp only [forEach, endStep, hc, ne_eq, not_false_eq_true, if_true]
    rw [ih (c + 1) (by omega)]
    rfl

theorem end_of_make {V : Type} (front : List (List V)) (lastRange : List V) :
    (makeChainIterator (front ++ [lastRange])).end_ =
      ⟨toIterators front ++ [(lastRange.length, lastRange.length)], front.length,
        front.length⟩ := by
  have hlen : (toIterators (front ++ [lastRange])).length - 1 = front.length := by
    simp [toIterators]
  have htpl : toIterators (front ++ [lastRange]) =
      toIterators front ++ [(0, lastRange.length)] := by
    simp [toIterators]
  simp only [makeChainIterator, new, end_, hlen]
  rw [htpl, forEach_end_at front.length 0 lastRange.length (toIterators front) 0
    (by simp [toIterators])]

end ChainIterator

namespace ChainIterator

theorem exists_current (s : ChainIterator) (h : s.m_section < s.m_iteratorsTpl.length) :
    ∃ (pre : List (Nat × Nat)) (b e : Nat) (post : List (Nat × Nat)),
      s = ⟨pre ++ (b, e) :: post, pre.length, s.m_maxSection⟩ ∧
        s.m_iteratorsTpl[s.m_section]? = some (b, e) := by
  obtain ⟨tpl, sec, mx⟩ := s
  simp only at h ⊢
  refine ⟨tpl.take sec, tpl[sec].1, tpl[sec].2, tpl.drop (sec + 1), ?_, ?_⟩
  · have h1 : (tpl.take sec).length = sec := by
      rw [List.length_take]
      omega
    have h2 : tpl.take sec ++ (tpl[sec].1, tpl[sec].2) :: tpl.drop (sec + 1) = tpl := by
      rw [Prod.mk.eta, ← List.drop_eq_getElem_cons h, List.take_append_drop]
    rw [h1, h2]
  · rw [List.getElem?_eq_getElem h]

theorem increment_section (s : ChainIterator) :
    (increment s).m_maxSection = s.m_maxSection ∧
      (increment s).m_iteratorsTpl.length = s.m_iteratorsTpl.length ∧
      ((increment s).m_section = s.m_section ∨ (increment s).m_section = s.m_section + 1) ∧
      ((increment s).m_section = s.m_section + 1 ↔
        s.m_section ≠ s.m_maxSection ∧
          ∃ b e : Nat, s.m_iteratorsTpl[s.m_section]? = some (b, e) ∧ b + 1 = e) := by
  by_cases h : s.m_section < s.m_iteratorsTpl.length
  · obtain ⟨pre, b, e, post, hs, hget⟩ := exists_current s h
    have hinc := increment_at pre post b e s.m_maxSection
    rw [← hs] at hinc
    have hsec : s.m_section = pre.length := by rw [hs]
    have htpl : s.m_iteratorsTpl = pre ++ (b, e) :: post := by rw [hs]
    rw [hinc, hget]
    simp only [htpl, List.length_append, List.length_cons, true_and, Option.some.injEq,
      Prod.mk.injEq]
    by_cases h1 : b + 1 = e
    · by_cases h2 : pre.length = s.m_maxSection
      · simp [h1, h2, hsec]
      · simp only [h1, h2, hsec, ne_eq, not_false_eq_true, and_self, if_true, or_true,
          true_and]
        exact ⟨fun _ => ⟨b, e, ⟨rfl, rfl⟩, h1⟩, fun _ => trivial⟩
    · simp only [h1, false_and, if_false, hsec, true_or, true_and]
      constructor
      · intro hc
        omega
      · rintro ⟨_, b2, e2, ⟨rfl, rfl⟩, h3⟩
        exact absurd h3 h1
  · have hle : 0 + s.m_iteratorsTpl.length ≤ s.m_section := by omega
    have hf := forEach_increment_before s.m_section s.m_maxSection s.m_iteratorsTpl 0 false hle
    have hnone : s.m_iteratorsTpl[s.m_section]? = none :=
      List.getElem?_eq_none (by omega)
    simp only [increment, hf, Bool.false_eq_true, if_false, hnone, true_and, true_or]
    constructor
    · intro hc
      omega
    · rintro ⟨_, b, e, h3, _⟩
      cases h3

theorem iterate_invariant (s : ChainIterator) (h : s.m_section ≤ s.m_maxSection) (j : Nat) :
    (Nat.iterate increment j s).m_maxSection = s.m_maxSection ∧
      (Nat.iterate increment j s).m_section ≤ s.m_maxSection := by
  induction j with
  | zero => exact ⟨rfl, h⟩
  | succ j ih =>
    rw [Function.iterate_succ_apply']
    obtain ⟨h1, _, h3, h4⟩ := increment_section (Nat.iterate increment j s)
    refine ⟨h1.trans ih.1, ?_⟩
    rcases h3 with h3 | h3
    · rw [h3]
      exact ih.2
    · have := (h4.1 h3).1
      rw [h3]
      have h5 := ih.1
      have h6 := ih.2
      omega

end ChainIterator

/-! ## The claims about `ChainIterator` -/

section ChainClaims

open ChainIterator

/-- C2: for a chain built by `makeChainIterator` over ranges that are all non-empty, the
loop that dereferences and increments from `begin()` until the iterator compares equal to
`end()` reads exactly the concatenation of the ranges in argument order and stops after as
many increments as there are elements in total. -/
theorem chain_loop_yields_concatenation {V : Type} (ranges : List (List V))
    (hne : ranges ≠ []) (hall : ∀ r ∈ ranges, r ≠ []) (fuel : Nat)
    (hfuel : ranges.flatten.length < fuel) :
    forLoop ranges (makeChainIterator ranges).end_ fuel (makeChainIterator ranges).begin =
      some (ranges.flatten, ranges.flatten.length) := by
  obtain ⟨cur, Rpost, rfl⟩ := List.exists_cons_of_ne_nil hne
  have hsplit := (List.dropLast_append_getLast hne).symm
  have hcur : cur ≠ [] := hall cur (List.mem_cons_self _ _)
  have hpos : 0 < cur.length := List.length_pos.2 hcur
  have hend := end_of_make ((cur :: Rpost).dropLast) ((cur :: Rpost).getLast hne)
  rw [← hsplit] at hend
  have hlen : (cur :: Rpost).length - 1 = ((cur :: Rpost).dropLast).length := by simp
  have h := forLoop_from (cur :: Rpost) (makeChainIterator (cur :: Rpost)).end_
    ((cur :: Rpost).getLast hne).length ((cur :: Rpost).getLast hne)
    (List.getLast?_eq_getLast _ hne) rfl
    (by rw [hend, hlen])
    (by
      rw [hend, hlen]
      have : (toIterators ((cur :: Rpost).dropLast)).length =
          ((cur :: Rpost).dropLast).length := by simp [toIterators]
      rw [← this]
      exact getElem?_middle _ _ _)
    Rpost [] cur [] (fun r hr => hall r (List.mem_cons_of_mem _ hr)) rfl rfl
    (cur.length - 1) 0 (by omega) fuel
    (by simp only [List.flatten_cons, List.length_append] at hfuel; omega)
  have hstart : (makeChainIterator (cur :: Rpost)).begin =
      ⟨[] ++ (0, cur.length) :: toIterators Rpost, ([] : List (Nat × Nat)).length,
        (cur :: Rpost).length - 1⟩ := by
    simp [makeChainIterator, new, begin, toIterators]
  rw [hstart, h]
  simp only [List.drop_zero, List.flatten_cons, List.length_append, Option.some.injEq,
    Prod.mk.injEq, true_and]
  omega

/-- Witness of C2 on the two ranges of the unit test, `{0,1,2,3}` and `{4,5,6,7}`. -/
theorem chain_loop_yields_concatenation_witness :
    forLoop [[0, 1, 2, 3], [4, 5, 6, 7]] (makeChainIterator [[0, 1, 2, 3], [4, 5, 6, 7]]).end_ 9
        (makeChainIterator [[0, 1, 2, 3], [4, 5, 6, 7]]).begin =
      some ([0, 1, 2, 3, 4, 5, 6, 7], 8) :=
  chain_loop_yields_concatenation [[0, 1, 2, 3], [4, 5, 6, 7]] (by decide) (by decide) 9
    (by decide)

/-- C13: for a chain over ranges that hold at least one element in total, `begin()` does
not compare equal to `end()`, so that `begin() != end()` is true. -/
theorem begin_not_equal_end {V : Type} (ranges : List (List V))
    (h : ranges.flatten ≠ []) :
    (makeChainIterator ranges).begin.equal (makeChainIterator ranges).end_ = false ∧
      (!(makeChainIterator ranges).begin.equal (makeChainIterator ranges).end_) = true := by
  have key : (makeChainIterator ranges).begin.equal (makeChainIterator ranges).end_ = false := by
    cases ranges with
    | nil => exact absurd rfl h
    | cons cur Rpost =>
      have hstart : (makeChainIterator (cur :: Rpost)).begin =
          ⟨[] ++ (0, cur.length) :: toIterators Rpost, ([] : List (Nat × Nat)).length,
            (cur :: Rpost).length - 1⟩ := by
        simp [makeChainIterator, new, begin, toIterators]
      rw [hstart, equal_at]
      cases Rpost with
      | nil =>
        have hend := end_of_make ([] : List (List V)) cur
        simp only [List.nil_append] at hend
        rw [hend]
        have hcur : cur.length ≠ 0 := by
          intro h0
          apply h
          simp [List.length_eq_zero.1 h0]
        simp [toIterators, Ne.symm hcur]
      | cons nxt R =>
        have hsec : (makeChainIterator (cur :: nxt :: R)).end_.m_section ≠ 0 := by
          simp [makeChainIterator, new, end_, toIterators]
        simp [hsec]
  exact ⟨key, by rw [key]; rfl⟩

/-- Witness of C13 on the two ranges of the unit test. -/
theorem begin_not_equal_end_witness :
    (makeChainIterator [[0, 1, 2, 3], [4, 5, 6, 7]]).begin.equal
      (makeChainIterator [[0, 1, 2, 3], [4, 5, 6, 7]]).end_ = false :=
  (begin_not_equal_end [[0, 1, 2, 3], [4, 5, 6, 7]] (by decide)).1

/-- C19: in the state the constructor builds, `m_section` is 0 and `m_maxSection` is the
number of ranges minus one; after any number `j` of `increment()` calls `m_maxSection` is
the same and `m_section <= m_maxSection`; one more call never lowers `m_section`, raises
it by at most one, and raises it exactly when the current section is not the last one and
the cursor of the current section, once advanced, is at that section's end. -/
theorem section_invariant {V : Type} (ranges : List (List V)) (j : Nat) :
    (makeChainIterator ranges).m_section = 0 ∧
      (makeChainIterator ranges).m_maxSection = ranges.length - 1 ∧
      (Nat.iterate increment j (makeChainIterator ranges)).m_maxSection = ranges.length - 1 ∧
      (Nat.iterate increment j (makeChainIterator ranges)).m_section ≤
        (Nat.iterate increment j (makeChainIterator ranges)).m_maxSection ∧
      (Nat.iterate increment j (makeChainIterator ranges)).m_section ≤
        (increment (Nat.iterate increment j (makeChainIterator ranges))).m_section ∧
      (increment (Nat.iterate increment j (makeChainIterator ranges))).m_section ≤
        (Nat.iterate increment j (makeChainIterator ranges)).m_section + 1 ∧
      ((increment (Nat.iterate increment j (makeChainIterator ranges))).m_section =
          (Nat.iterate increment j (makeChainIterator ranges)).m_section + 1 ↔
        (Nat.iterate increment j (makeChainIterator ranges)).m_section ≠
            (Nat.iterate increment j (makeChainIterator ranges)).m_maxSection ∧
          ∃ b e : Nat,
            (Nat.iterate increment j (makeChainIterator ranges)).m_iteratorsTpl[
              (Nat.iterate increment j (makeChainIterator ranges)).m_section]? = some (b, e) ∧
              b + 1 = e) := by
  have hmx : (makeChainIterator ranges).m_maxSection = ranges.length - 1 := by
    simp [makeChainIterator, new, toIterators]
  have h0 : (makeChainIterator ranges).m_section ≤ (makeChainIterator ranges).m_maxSection :=
    Nat.zero_le _
  obtain ⟨hi1, hi2⟩ := iterate_invariant (makeChainIterator ranges) h0 j
  obtain ⟨_, _, h3, h4⟩ := increment_section (Nat.iterate increment j (makeChainIterator ranges))
  refine ⟨rfl, hmx, hi1.trans hmx, by rw [hi1]; exact hi2, ?_, ?_, h4⟩
  · rcases h3 with h3 | h3 <;> omega
  · rcases h3 with h3 | h3 <;> omega

/-- C20: for two chain iterators `x` and `y` over the same ranges, `x == y` is true exactly
when `y` is in the section of `x`, the cursor of `x` in that section equals the cursor of
`y`, and the cursor of `y` equals the end of that section; so an iterator whose cursor is
not at the end of its section does not compare equal to itself. -/
theorem equal_as_implemented (x y : ChainIterator)
    (hx : x.m_section < x.m_iteratorsTpl.length)
    (hsame : List.map Prod.snd x.m_iteratorsTpl = List.map Prod.snd y.m_iteratorsTpl) :
    (x.equal y = true ↔
        y.m_section = x.m_section ∧
          ∃ b c e : Nat, x.m_iteratorsTpl[x.m_section]? = some (b, e) ∧
            y.m_iteratorsTpl[x.m_section]? = some (c, e) ∧ b = c ∧ c = e) ∧
      ∀ b e : Nat, x.m_iteratorsTpl[x.m_section]? = some (b, e) → b ≠ e →
        x.equal x = false := by
  obtain ⟨pre, b, e, post, hs, hget⟩ := exists_current x hx
  have hsec : x.m_section = pre.length := by rw [hs]
  have hsnd : Option.map Prod.snd (y.m_iteratorsTpl[x.m_section]?) = some e := by
    rw [← List.getElem?_map, ← hsame, List.getElem?_map, hget]
    rfl
  have heq : ∀ z : ChainIterator, x.equal z =
      if z.m_section = pre.length then
        match z.m_iteratorsTpl[pre.length]? with
        | some otherIterators => decide (b = otherIterators.1) && decide (e = otherIterators.1)
        | none => false
      else false := by
    intro z
    rw [hs]
    exact equal_at pre post b e x.m_maxSection z
  constructor
  · rw [heq y, hget, ← hsec]
    cases hy : y.m_iteratorsTpl[x.m_section]? with
    | none => rw [hy] at hsnd; cases hsnd
    | some oi =>
      obtain ⟨c, e2⟩ := oi
      rw [hy] at hsnd
      simp only [Option.map_some', Option.some.injEq] at hsnd
      subst hsnd
      by_cases h1 : y.m_section = x.m_section
      · simp only [h1, if_true, Bool.and_eq_true, decide_eq_true_eq, true_and,
          Option.some.injEq, Prod.mk.injEq]
        constructor
        · intro hbc
          exact ⟨b, c, _, ⟨rfl, rfl⟩, ⟨rfl, rfl⟩, hbc.1, hbc.2.symm⟩
        · rintro ⟨b2, c2, e3, ⟨hb2, he3⟩, ⟨hc2, _⟩, h23, h3⟩
          exact ⟨by rw [hb2, hc2, h23], by rw [he3, hc2, h3]⟩
      · simp [h1]
  · intro b2 e2 hb hne
    rw [hget] at hb
    simp only [Option.some.injEq, Prod.mk.injEq] at hb
    obtain ⟨rfl, rfl⟩ := hb
    rw [heq x, ← hsec, hget]
    simp [Ne.symm hne]

/-- Witness of C20: the iterator over the two ranges of the unit test, fresh from
`makeChainIterator`, does not compare equal to itself. -/
theorem equal_as_implemented_witness :
    (makeChainIterator [[0, 1, 2, 3], [4, 5, 6, 7]]).equal
      (makeChainIterator [[0, 1, 2, 3], [4, 5, 6, 7]]) = false :=
  (equal_as_implemented (makeChainIterator [[0, 1, 2, 3], [4, 5, 6, 7]])
    (makeChainIterator [[0, 1, 2, 3], [4, 5, 6, 7]]) (by decide) rfl).2 0 4 (by decide)
    (by decide)

/-- C12, the code at a failing input: for the ranges `{}` and `{1}` the iterator at
`begin()` does not compare equal to `end()` and is in the empty first section, whose
cursor is at no element, so the loop dereferences an invalid cursor and never reads the
concatenation `[1]`. -/
theorem chain_with_empty_first_range :
    (makeChainIterator [[], [1]]).begin.equal (makeChainIterator [[], [1]]).end_ = false ∧
      (makeChainIterator [[], [1]]).begin.m_section = 0 ∧
      (makeChainIterator [[], [1]]).begin.m_iteratorsTpl = [(0, 0), (0, 1)] ∧
      dereference [[], [1]] (makeChainIterator [[], [1]]).begin = none ∧
      ∀ fuel : Nat,
        forLoop [[], [1]] (makeChainIterator [[], [1]]).end_ fuel
          (makeChainIterator [[], [1]]).begin = none := by
  refine ⟨by decide, by decide, by decide, by decide, ?_⟩
  intro fuel
  cases fuel with
  | zero => rfl
  | succ n => rfl

end ChainClaims
